import Mathlib

/-!
# Verification of the crustacean-wordle core

Shallow embedding of the repository's core (src/words.rs, src/pattern.rs,
src/bitmask.rs, src/game.rs, src/strategy.rs) and proofs about it.

Modelling conventions:
* `Vec<char>` becomes `List Char`; `HashSet<char>` becomes a `List Char` with
  insert-if-absent discipline; `HashMap<K, V>` becomes an association list
  `List (K × V)` whose operations update the first matching key (hash maps
  have unique keys, so this is faithful); iteration order of a hash map is
  unspecified in Rust, and every property proved below is insensitive to the
  order in which we lay the entries out.
* `usize`/`i32` counters become `Nat`/`Int` (no overflow is reachable for
  word-sized data, and the `Counter<_, i32>` in `outcome_of_guess` is modelled
  with `Int` so that the unconditional decrement is represented exactly).
* `f64` scores are carried as `ℚ` (they are opaque payload for the claims
  below); the `f64` entropy `log2(n)` of strategy.rs is modelled by an
  abstract entropy function `ent : Nat → ℚ` of the candidate-set cardinality,
  which every theorem quantifies over.
* A Rust panic (`expect`, `debug_assert`, index out of bounds) is modelled by
  `Option`: `none` is the panic, `some` the normal result.
-/

namespace Crustacean

/-- game.rs: per-tile outcome of a guess (Gray = absent,
Yellow = present elsewhere, Green = correct position). -/
inductive TileOutcome
  | Gray
  | Yellow
  | Green
deriving DecidableEq, Repr

/-- words.rs `Word`: an immutable sequence of characters. -/
structure Word where
  word : List Char
deriving DecidableEq, Repr

/-- words.rs `impl From<&str> for Word`. -/
def Word.ofString (s : String) : Word := ⟨s.toList⟩

/-- words.rs `Word::has_letter`. -/
def Word.has_letter (w : Word) (ch : Char) : Bool := w.word.contains ch

/-- words.rs `Word::num_occurrences`. -/
def Word.num_occurrences (w : Word) (ch : Char) : Nat := w.word.count ch

/-- game.rs `Guess`: a guessed word paired with its outcome vector. -/
structure Guess where
  guess : List Char
  outcome : List TileOutcome
deriving DecidableEq, Repr

/-- Decrement a character counter at one key
(models `counts[&ch] -= 1` on the `Counter`). -/
def decr (counts : Char → Int) (c : Char) : Char → Int :=
  fun x => if x = c then counts x - 1 else counts x

/-- First pass of words.rs `Word::outcome_of_guess`: walk the zipped
secret/guess characters, mark Green on equality and decrement the
letter pool of the secret. -/
def first_pass : List (Char × Char) → (Char → Int) → List TileOutcome × (Char → Int)
  | [], counts => ([], counts)
  | (s, g) :: rest, counts =>
    if s = g then
      let r := first_pass rest (decr counts s)
      (TileOutcome.Green :: r.1, r.2)
    else
      let r := first_pass rest counts
      (TileOutcome.Gray :: r.1, r.2)

/-- Second pass of words.rs `Word::outcome_of_guess`: a still-Gray tile whose
guessed letter occurs in the secret and still has pool count > 0 becomes
Yellow and consumes one pool unit. -/
def second_pass (secret : List Char) :
    List (TileOutcome × Char) → (Char → Int) → List TileOutcome
  | [], _ => []
  | (o, ch) :: rest, counts =>
    if o = TileOutcome.Gray ∧ secret.contains ch ∧ 0 < counts ch then
      TileOutcome.Yellow :: second_pass secret rest (decr counts ch)
    else
      o :: second_pass secret rest counts

/-- words.rs `Word::outcome_of_guess` (two-pass, duplicate-letter correct).
The `debug_assert_eq!` on the lengths is the stated fail-fast contract of the
operation and is modelled as the `none` (panic) branch. -/
def Word.outcome_of_guess (w : Word) (guess : Word) : Option (List TileOutcome) :=
  if guess.word.length = w.word.length then
    let counts : Char → Int := fun c => (w.word.count c : Int)
    let fp := first_pass (w.word.zip guess.word) counts
    some (second_pass w.word (fp.1.zip guess.word) fp.2)
  else
    none

example :
    (Word.ofString "crepe").outcome_of_guess (Word.ofString "eerie") =
      some [TileOutcome.Yellow, TileOutcome.Gray, TileOutcome.Yellow,
            TileOutcome.Gray, TileOutcome.Green] := by decide

/-- The repository's own unit test `test_outcome_of_guess` (words.rs),
reproduced as a sanity check of the embedding. -/
example :
    (Word.ofString "abccdeefxr").outcome_of_guess (Word.ofString "azdcccferr") =
      some [TileOutcome.Green, TileOutcome.Gray, TileOutcome.Yellow,
            TileOutcome.Green, TileOutcome.Yellow, TileOutcome.Gray,
            TileOutcome.Yellow, TileOutcome.Yellow, TileOutcome.Gray,
            TileOutcome.Green] := by decide

/-! ## Knowledge (`Pattern`, words.rs) -/

/-- words.rs `PlaceConstraint`: a position is known to be a specific
character, or known not to be any of a set of characters. -/
inductive PlaceConstraint
  | IsChar (c : Char)
  | IsNotChars (cs : List Char)
deriving DecidableEq, Repr

/-- words.rs `Pattern`: accumulated knowledge. `disallowed` is a
`HashSet<char>` (modelled as a duplicate-free-by-construction list),
`must_contain` a `HashMap<char, usize>` and `constraints` a
`HashMap<usize, PlaceConstraint>` (association lists). -/
structure Pattern where
  disallowed : List Char
  must_contain : List (Char × Nat)
  constraints : List (Nat × PlaceConstraint)
deriving DecidableEq, Repr

/-- `Pattern::default()`: empty knowledge. -/
def Pattern.empty : Pattern := ⟨[], [], []⟩

/-- `*count_map.entry(ch).or_insert(0) += 1` on an association list:
bump the first entry with the given key, appending `(c, 1)` if absent. -/
def al_incr : List (Char × Nat) → Char → List (Char × Nat)
  | [], c => [(c, 1)]
  | (k, v) :: rest, c =>
    if k = c then (k, v + 1) :: rest else (k, v) :: al_incr rest c

/-- Association-list lookup (first matching key wins, as in a hash map). -/
def al_get (m : List (Char × Nat)) (c : Char) : Option Nat :=
  (m.find? (fun e => e.1 = c)).map (·.2)

/-- `let entry = must_contain.entry(**ch).or_insert(*count); *entry =
(*entry).max(*count)`: raise the first entry with key `c` to at least
`count`, appending `(c, count)` if the key is absent. -/
def al_max_insert : List (Char × Nat) → Char → Nat → List (Char × Nat)
  | [], c, count => [(c, count)]
  | (k, v) :: rest, c, count =>
    if k = c then (k, Nat.max v count) :: rest
    else (k, v) :: al_max_insert rest c count

/-- `constraints.insert(idx, PlaceConstraint::IsChar(ch))`: replace the
first entry with key `idx` (hash-map insert), appending if absent. -/
def c_set_char : List (Nat × PlaceConstraint) → Nat → Char → List (Nat × PlaceConstraint)
  | [], i, c => [(i, PlaceConstraint.IsChar c)]
  | (j, cons) :: rest, i, c =>
    if j = i then (j, PlaceConstraint.IsChar c) :: rest
    else (j, cons) :: c_set_char rest i c

/-- The Gray/Yellow constraint update of `Pattern::ingest`: leave an
`IsChar` alone, extend an `IsNotChars` with `ch` if not already present,
and insert `IsNotChars [ch]` when the position has no constraint yet. -/
def c_add_not : List (Nat × PlaceConstraint) → Nat → Char → List (Nat × PlaceConstraint)
  | [], i, c => [(i, PlaceConstraint.IsNotChars [c])]
  | (j, cons) :: rest, i, c =>
    if j = i then
      (j, match cons with
          | PlaceConstraint.IsChar d => PlaceConstraint.IsChar d
          | PlaceConstraint.IsNotChars cs =>
            PlaceConstraint.IsNotChars (if cs.contains c then cs else cs ++ [c])) :: rest
    else (j, cons) :: c_add_not rest i c

/-- One iteration of the per-tile loop of words.rs `Pattern::ingest`,
acting on the loop state `(count_map, to_disallow, constraints)`.
`disallowed0` is the (unmodified during the loop) `disallowed` of `self`. -/
def ingest_step (disallowed0 : List Char)
    (st : List (Char × Nat) × List Char × List (Nat × PlaceConstraint))
    (tile : Nat × Char × TileOutcome) :
    List (Char × Nat) × List Char × List (Nat × PlaceConstraint) :=
  let (count_map, to_disallow, constraints) := st
  let (idx, ch, oc) := tile
  match oc with
  | TileOutcome.Green =>
    (al_incr count_map ch, to_disallow, c_set_char constraints idx ch)
  | TileOutcome.Gray =>
    (count_map, to_disallow ++ [ch],
     if disallowed0.contains ch then constraints else c_add_not constraints idx ch)
  | TileOutcome.Yellow =>
    (al_incr count_map ch, to_disallow,
     if disallowed0.contains ch then constraints else c_add_not constraints idx ch)

/-- The enumerated `(idx, (ch, outcome))` pairs of `guess.paired_iter().enumerate()`. -/
def Guess.paired (g : Guess) : List (Nat × Char × TileOutcome) :=
  (g.guess.zip g.outcome).enum

/-- words.rs `Pattern::ingest`: fold the guess tiles through the loop, then
merge the per-guess counts into `must_contain` with `max`, then disallow the
Gray-only letters that were never counted and are not already disallowed. -/
def Pattern.ingest (p : Pattern) (g : Guess) : Pattern :=
  let st := g.paired.foldl (ingest_step p.disallowed) ([], [], p.constraints)
  let count_map := st.1
  let to_disallow := st.2.1
  let constraints := st.2.2
  let must_contain := count_map.foldl (fun m e => al_max_insert m e.1 e.2) p.must_contain
  let disallowed := to_disallow.foldl
    (fun d ch =>
      if (al_get count_map ch).isNone ∧ ¬ d.contains ch then d ++ [ch] else d)
    p.disallowed
  { disallowed := disallowed, must_contain := must_contain, constraints := constraints }

/-- The repository's own unit test `test_ingest` (words.rs), first part. -/
example :
    Pattern.ingest Pattern.empty
      ⟨['t', 'a', 'r', 'e', 's'],
       [TileOutcome.Yellow, TileOutcome.Gray, TileOutcome.Gray,
        TileOutcome.Gray, TileOutcome.Gray]⟩ =
    { disallowed := ['a', 'r', 'e', 's'],
      must_contain := [('t', 1)],
      constraints := [(0, PlaceConstraint.IsNotChars ['t']),
                      (1, PlaceConstraint.IsNotChars ['a']),
                      (2, PlaceConstraint.IsNotChars ['r']),
                      (3, PlaceConstraint.IsNotChars ['e']),
                      (4, PlaceConstraint.IsNotChars ['s'])] } := by decide

/-- The repository's own unit test `test_ingest` (words.rs), second part
(hash-map iteration order is unspecified in Rust; the association lists
below carry the same maps). -/
example :
    Pattern.ingest
      { disallowed := ['a', 'b', 'c'],
        must_contain := [('e', 1)],
        constraints := [(0, PlaceConstraint.IsChar 'd'),
                        (1, PlaceConstraint.IsChar 'e'),
                        (2, PlaceConstraint.IsChar 'd')] }
      ⟨['d', 'e', 'd', 'e', 'f', 'e'],
       [TileOutcome.Green, TileOutcome.Green, TileOutcome.Green,
        TileOutcome.Yellow, TileOutcome.Yellow, TileOutcome.Gray]⟩ =
    { disallowed := ['a', 'b', 'c'],
      must_contain := [('e', 2), ('d', 2), ('f', 1)],
      constraints := [(0, PlaceConstraint.IsChar 'd'),
                      (1, PlaceConstraint.IsChar 'e'),
                      (2, PlaceConstraint.IsChar 'd'),
                      (3, PlaceConstraint.IsNotChars ['e']),
                      (4, PlaceConstraint.IsNotChars ['f']),
                      (5, PlaceConstraint.IsNotChars ['e'])] } := by decide

/-! ## Matching and filtering (words.rs) -/

/-- words.rs `Word::obeys_constraint`. The `expect("Constraint index out of
bounds!")` panic is the `none` branch. -/
def Word.obeys_constraint (w : Word) (cons : Nat × PlaceConstraint) : Option Bool :=
  match w.word[cons.1]? with
  | none => none
  | some value =>
    match cons.2 with
    | PlaceConstraint.IsChar ch => some (ch = value)
    | PlaceConstraint.IsNotChars chars => some (¬ chars.contains value)

/-- The constraint loop of words.rs `Word::matches`: `some false` at the
first violated constraint, `none` (panic) at the first out-of-bounds index. -/
def obeys_all (w : Word) : List (Nat × PlaceConstraint) → Option Bool
  | [] => some true
  | cons :: rest =>
    match w.obeys_constraint cons with
    | none => none
    | some false => some false
    | some true => obeys_all w rest

/-- words.rs `Word::matches`: early-return `false` on a disallowed letter or
an unmet minimum count, then check every positional constraint. -/
def Word.matches (w : Word) (p : Pattern) : Option Bool :=
  if p.disallowed.any (fun ch => w.has_letter ch) then some false
  else if p.must_contain.any (fun e => w.num_occurrences e.1 < e.2) then some false
  else obeys_all w p.constraints

/-- words.rs `Wordlist`/`SubWordlist`: index-aligned words and scores.
(Both Rust structs have this exact shape; one Lean structure models both.) -/
structure Wordlist where
  words : List Word
  scores : List ℚ
deriving DecidableEq

/-- `matches` across a word list, propagating a panic. -/
def matches_list : List Word → Pattern → Option (List Bool)
  | [], _ => some []
  | w :: ws, p =>
    match w.matches p, matches_list ws p with
    | some b, some bs => some (b :: bs)
    | _, _ => none

/-- The indices (starting at `n`) of the `true` entries: models the
`filter_map` over `enumerate()` in `CanPatternFilter::filter_pattern`. -/
def pick_indices : Nat → List Bool → List Nat
  | _, [] => []
  | n, b :: bs =>
    if b then n :: pick_indices (n + 1) bs else pick_indices (n + 1) bs

/-- words.rs `CanPatternFilter::filter_pattern`: collect the indices of the
matching words, then gather those indices from the word and score sequences
(silently skipping indices beyond either sequence, as `filter_map` +
`get` does). -/
def filter_pattern (wl : Wordlist) (p : Pattern) : Option Wordlist :=
  match matches_list wl.words p with
  | none => none
  | some bs =>
    let indices := pick_indices 0 bs
    some { words := indices.filterMap (fun i => wl.words[i]?),
           scores := indices.filterMap (fun i => wl.scores[i]?) }

/-- First repository `test_matches` pattern (words.rs), as a sanity check. -/
example :
    ((Word.ofString "ded").matches
        { disallowed := ['a', 'b', 'c'],
          must_contain := [('d', 2), ('e', 1)],
          constraints := [(0, PlaceConstraint.IsChar 'd'),
                          (1, PlaceConstraint.IsNotChars ['d', 'e']),
                          (2, PlaceConstraint.IsChar 'd')] } = some false) ∧
    ((Word.ofString "dfde").matches
        { disallowed := ['a', 'b', 'c'],
          must_contain := [('d', 2), ('e', 1)],
          constraints := [(0, PlaceConstraint.IsChar 'd'),
                          (1, PlaceConstraint.IsNotChars ['d', 'e']),
                          (2, PlaceConstraint.IsChar 'd')] } = some true) ∧
    ((Word.ofString "mocha").matches
        { disallowed := ['t', 'b', 'i', 'n', 'g', 's', 'z', 'e', 'l', 'u', 'y', 'r'],
          must_contain := [('a', 1), ('o', 1), ('h', 1), ('c', 1)],
          constraints := [(0, PlaceConstraint.IsNotChars ['s', 'l', 'b', 'a']),
                          (1, PlaceConstraint.IsChar 'o'),
                          (2, PlaceConstraint.IsNotChars ['a', 'n', 't', 'y']),
                          (3, PlaceConstraint.IsNotChars ['r', 'a', 'o', 'g']),
                          (4, PlaceConstraint.IsNotChars ['e', 'c', 'h', 'y'])] } = some true) ∧
    ((Word.ofString "bocha").matches
        { disallowed := ['t', 'b', 'i', 'n', 'g', 's', 'z', 'e', 'l', 'u', 'y', 'r'],
          must_contain := [('a', 1), ('o', 1), ('h', 1), ('c', 1)],
          constraints := [(0, PlaceConstraint.IsNotChars ['s', 'l', 'b', 'a']),
                          (1, PlaceConstraint.IsChar 'o'),
                          (2, PlaceConstraint.IsNotChars ['a', 'n', 't', 'y']),
                          (3, PlaceConstraint.IsNotChars ['r', 'a', 'o', 'g']),
                          (4, PlaceConstraint.IsNotChars ['e', 'c', 'h', 'y'])] } = some false) := by
  decide

/-! ## Entropy strategy (strategy.rs)

`EntropyStrategy::chosen_guess` computes, for every allowed guess, the
histogram of outcome patterns over the extant candidate words, the total
entropy gain of the guess, and then stable-sorts the `(gain, word)` pairs by
descending gain and returns the first. The `f64` entropy `log2(count)` is
modelled by an abstract function `ent : Nat → ℚ` of the cardinality; every
theorem below holds for all `ent`. -/

/-- strategy.rs `ENTROPY_STRATEGY_WIN_VALUE`. -/
def ENTROPY_STRATEGY_WIN_VALUE : ℚ := -1000

/-- The state of strategy.rs `EntropyStrategy` (the verbosity field and the
progress bar are presentation-only and omitted). -/
structure EntropyStrategy where
  knowledge : Pattern
  guesslist : Wordlist
  extant : Wordlist

/-- `*possible_patterns.entry(outcome).or_insert(0) += 1` on an association
list keyed by outcome vectors. -/
def tally : List (List TileOutcome × Nat) → List TileOutcome → List (List TileOutcome × Nat)
  | [], k => [(k, 1)]
  | (k', v) :: rest, k =>
    if k' = k then (k', v + 1) :: rest else (k', v) :: tally rest k

/-- The `possible_patterns` histogram of `chosen_guess`: outcome of the guess
against every extant word, counted per distinct outcome vector. A panicking
`outcome_of_guess` propagates as `none`. -/
def possible_patterns (extant : List Word) (guess : Word) :
    Option (List (List TileOutcome × Nat)) :=
  extant.foldlM
    (fun m actual_word => (actual_word.outcome_of_guess guess).map (tally m)) []

/-- The `total_gain` accumulation of `chosen_guess`: for every outcome
pattern, ingest it, filter the extant set, and add
`count * (current_entropy - new_entropy)`, with the win sentinel when the
current entropy is zero and the pattern is all Green. -/
def total_gain (ent : Nat → ℚ) (st : EntropyStrategy) (guess : Word)
    (pats : List (List TileOutcome × Nat)) : Option ℚ :=
  let current_entropy := ent st.extant.words.length
  pats.foldlM
    (fun acc e =>
      let outcome := e.1
      let count := e.2
      let pattern := st.knowledge.ingest ⟨guess.word, outcome⟩
      (filter_pattern st.extant pattern).map (fun sublist =>
        let new_entropy :=
          if current_entropy = 0 ∧ outcome.all (fun item => item = TileOutcome.Green)
          then ENTROPY_STRATEGY_WIN_VALUE
          else ent sublist.words.length
        acc + (count : ℚ) * (current_entropy - new_entropy)))
    0

/-- The parallel `map` of `chosen_guess` over all allowed guesses. Rayon's
`par_iter().map().collect()` yields results in input order, independent of
worker completion order, so it is modelled as an (order-preserving) `mapM`. -/
def gain_pairs (ent : Nat → ℚ) (st : EntropyStrategy) : Option (List (ℚ × Word)) :=
  st.guesslist.words.mapM
    (fun guess =>
      (possible_patterns st.extant.words guess).bind
        (fun pats => (total_gain ent st guess pats).map (fun g => (g, guess))))

/-- Insert into a list sorted by descending first component, placing the new
element before the first entry whose gain is ≤ its own (stability: an
element is never moved past an equal-gain element that preceded it). -/
def insert_desc (x : ℚ × Word) : List (ℚ × Word) → List (ℚ × Word)
  | [] => [x]
  | y :: rest => if y.1 ≤ x.1 then x :: y :: rest else y :: insert_desc x rest

/-- Stable sort by descending gain. Models
`guess_score_pairs.sort_by(|(s1, _), (s2, _)| s2.partial_cmp(s1).unwrap())`:
`Vec::sort_by` is a stable sort, and a stable sort under a fixed total
preorder has a unique output, so this insertion sort is extensionally the
same function. -/
def sort_desc : List (ℚ × Word) → List (ℚ × Word)
  | [] => []
  | x :: rest => insert_desc x (sort_desc rest)

/-- strategy.rs `EntropyStrategy::chosen_guess`: score all allowed guesses,
stable-sort by descending gain, return the first (`None` when there is
none). -/
def chosen_guess (ent : Nat → ℚ) (st : EntropyStrategy) : Option Word :=
  match gain_pairs ent st with
  | none => none
  | some guess_score_pairs =>
    ((sort_desc guess_score_pairs).head?).map (·.2)

/-- strategy.rs `EntropyStrategy::register_guess`. A panicking
`filter_pattern` propagates as `none`. -/
def register_guess (st : EntropyStrategy) (g : Guess) : Option EntropyStrategy :=
  let knowledge := st.knowledge.ingest g
  (filter_pattern st.extant knowledge).map
    (fun extant => { st with knowledge := knowledge, extant := extant })

/-! ## Bitmask variant (bitmask.rs, pattern.rs)

pattern.rs duplicates `Pattern`/`ingest` with `HashSet<char>` and
`Vec<char>` replaced by a `u64` letter bitmask. `u64` values are modelled as
`Nat` with explicit wrapping where the Rust operations wrap. -/

/-- bitmask.rs `to_ascii_lowercase` on a byte value. -/
def lower_ascii (n : Nat) : Nat := if 65 ≤ n ∧ n ≤ 90 then n + 32 else n

/-- bitmask.rs `LetterBitmask::char_bitmask`:
`1_u64 << (ch.to_ascii_lowercase() as u8 - 'a' as u8)`, with the `u8`
subtraction and the shift amount wrapping as the release-mode `u64`
operations do (for ASCII letters no wrapping occurs). -/
def char_bitmask (ch : Char) : Nat :=
  1 <<< (((lower_ascii (ch.toNat % 256) + 159) % 256) % 64)

/-- bitmask.rs `LetterBitmask::compute_bitmask`: union of the per-character
bitmasks. -/
def compute_bitmask (word : List Char) : Nat :=
  word.foldl (fun output ch => output ||| char_bitmask ch) 0

/-- pattern.rs `PlaceConstraint` (bitmask flavour). -/
inductive PlaceConstraintB
  | IsChar (c : Char)
  | IsNotChars (mask : Nat)
deriving DecidableEq, Repr

/-- pattern.rs `Pattern` (bitmask flavour). -/
structure PatternB where
  disallowed : Nat
  must_contain : List (Char × Nat)
  constraints : List (Nat × PlaceConstraintB)
deriving DecidableEq, Repr

/-- pattern.rs `Pattern::default()`. -/
def PatternB.empty : PatternB := ⟨0, [], []⟩

/-- `constraints.insert(idx, PlaceConstraint::IsChar(ch))`, bitmask flavour. -/
def cb_set_char : List (Nat × PlaceConstraintB) → Nat → Char → List (Nat × PlaceConstraintB)
  | [], i, c => [(i, PlaceConstraintB.IsChar c)]
  | (j, cons) :: rest, i, c =>
    if j = i then (j, PlaceConstraintB.IsChar c) :: rest
    else (j, cons) :: cb_set_char rest i c

/-- The Gray/Yellow constraint update of pattern.rs `Pattern::ingest`:
`*chars |= mask` on an `IsNotChars`, insert `IsNotChars(mask)` when the
position has no constraint yet. -/
def cb_add_not : List (Nat × PlaceConstraintB) → Nat → Char → List (Nat × PlaceConstraintB)
  | [], i, c => [(i, PlaceConstraintB.IsNotChars (char_bitmask c))]
  | (j, cons) :: rest, i, c =>
    if j = i then
      (j, match cons with
          | PlaceConstraintB.IsChar d => PlaceConstraintB.IsChar d
          | PlaceConstraintB.IsNotChars chars =>
            PlaceConstraintB.IsNotChars (chars ||| char_bitmask c)) :: rest
    else (j, cons) :: cb_add_not rest i c

/-- One iteration of the per-tile loop of pattern.rs `Pattern::ingest`. -/
def ingest_stepB (disallowed0 : Nat)
    (st : List (Char × Nat) × List Char × List (Nat × PlaceConstraintB))
    (tile : Nat × Char × TileOutcome) :
    List (Char × Nat) × List Char × List (Nat × PlaceConstraintB) :=
  let (count_map, to_disallow, constraints) := st
  let (idx, ch, oc) := tile
  match oc with
  | TileOutcome.Green =>
    (al_incr count_map ch, to_disallow, cb_set_char constraints idx ch)
  | TileOutcome.Gray =>
    (count_map, to_disallow ++ [ch],
     if disallowed0 &&& char_bitmask ch = 0 then cb_add_not constraints idx ch
     else constraints)
  | TileOutcome.Yellow =>
    (al_incr count_map ch, to_disallow,
     if disallowed0 &&& char_bitmask ch = 0 then cb_add_not constraints idx ch
     else constraints)

/-- pattern.rs `Pattern::ingest` (same structure as the words.rs version,
with bitmask membership tests and unions). -/
def PatternB.ingest (p : PatternB) (g : Guess) : PatternB :=
  let st := g.paired.foldl (ingest_stepB p.disallowed) ([], [], p.constraints)
  let count_map := st.1
  let to_disallow := st.2.1
  let constraints := st.2.2
  let must_contain := count_map.foldl (fun m e => al_max_insert m e.1 e.2) p.must_contain
  let disallowed := to_disallow.foldl
    (fun d ch =>
      if (al_get count_map ch).isNone ∧ d &&& char_bitmask ch = 0
      then d ||| char_bitmask ch else d)
    p.disallowed
  { disallowed := disallowed, must_contain := must_contain, constraints := constraints }

/-- The repository's own unit test `test_ingest` (pattern.rs), first part. -/
example :
    PatternB.ingest PatternB.empty
      ⟨['t', 'a', 'r', 'e', 's'],
       [TileOutcome.Yellow, TileOutcome.Gray, TileOutcome.Gray,
        TileOutcome.Gray, TileOutcome.Gray]⟩ =
    { disallowed := compute_bitmask ['r', 'a', 's', 'e'],
      must_contain := [('t', 1)],
      constraints := [(0, PlaceConstraintB.IsNotChars (compute_bitmask ['t'])),
                      (1, PlaceConstraintB.IsNotChars (compute_bitmask ['a'])),
                      (2, PlaceConstraintB.IsNotChars (compute_bitmask ['r'])),
                      (3, PlaceConstraintB.IsNotChars (compute_bitmask ['e'])),
                      (4, PlaceConstraintB.IsNotChars (compute_bitmask ['s']))] } := by
  decide

/-! ## Claim C2 -/

/-- C2 counterexample: `outcome(secret = "crepe", guess = "eerie")` is NOT
`[PresentElsewhere, Absent, CorrectPosition, Absent, CorrectPosition]`:
position 2 pairs secret letter `e` with guess letter `r`, which can never be
CorrectPosition. -/
theorem C2_counterexample :
    (Word.ofString "crepe").outcome_of_guess (Word.ofString "eerie") ≠
      some [TileOutcome.Yellow, TileOutcome.Gray, TileOutcome.Green,
            TileOutcome.Gray, TileOutcome.Green] := by
  decide

/-- C2 (amended): `outcome(secret = "crepe", guess = "eerie")` equals
`[PresentElsewhere, Absent, PresentElsewhere, Absent, CorrectPosition]`:
the guessed `r` at position 2 is present elsewhere in the secret, and only
two of the three guessed `e`s are matched (positions 0 and 4) because the
secret holds only two `e`s. -/
theorem C2_theorem :
    (Word.ofString "crepe").outcome_of_guess (Word.ofString "eerie") =
      some [TileOutcome.Yellow, TileOutcome.Gray, TileOutcome.Yellow,
            TileOutcome.Gray, TileOutcome.Green] := by
  decide

/-! ## Claim C8 -/

/-- C8: for every secret word and guess word of different lengths,
`outcome_of_guess` fails fast (the length contract of the operation,
expressed by its `debug_assert_eq!`, is modelled as the explicit failure
branch) and never returns an outcome vector. -/
theorem C8_theorem (w guess : Word) (h : guess.word.length ≠ w.word.length) :
    w.outcome_of_guess guess = none := by
  unfold Word.outcome_of_guess
  simp [h]

/-- C8 witness: a five-letter secret against a three-letter guess fails. -/
theorem C8_witness :
    (Word.ofString "crepe").outcome_of_guess (Word.ofString "eer") = none :=
  C8_theorem _ _ (by decide)

/-! ## Claim C5 -/

/-- Declarative reading of one positional constraint: `IsChar c` demands the
letter at that index be exactly `c`; `IsNotChars cs` demands the letter at
that index exist and not be in `cs`. -/
def constraint_sat (w : Word) (e : Nat × PlaceConstraint) : Prop :=
  match e.2 with
  | PlaceConstraint.IsChar c => w.word[e.1]? = some c
  | PlaceConstraint.IsNotChars cs => ∃ v, w.word[e.1]? = some v ∧ ¬ v ∈ cs

theorem obeys_constraint_true_iff (w : Word) (e : Nat × PlaceConstraint) :
    w.obeys_constraint e = some true ↔ constraint_sat w e := by
  unfold Word.obeys_constraint constraint_sat
  rcases hv : w.word[e.1]? with _ | v
  · rcases e.2 with c | cs <;> simp
  · rcases e.2 with c | cs
    · simp [eq_comm]
    · simp

theorem obeys_all_true_iff (w : Word) (cs : List (Nat × PlaceConstraint)) :
    obeys_all w cs = some true ↔ ∀ e ∈ cs, constraint_sat w e := by
  induction cs with
  | nil => simp [obeys_all]
  | cons e rest ih =>
    unfold obeys_all
    rcases he : w.obeys_constraint e with _ | b
    · constructor
      · intro h; simp at h
      · intro h
        have h1 := (obeys_constraint_true_iff w e).mpr (h e (by simp))
        rw [he] at h1; simp at h1
    · rcases b with _ | _
      · constructor
        · intro h; simp at h
        · intro h
          have h1 := (obeys_constraint_true_iff w e).mpr (h e (by simp))
          rw [he] at h1; simp at h1
      · rw [show (match (some true : Option Bool) with
              | none => (none : Option Bool)
              | some false => some false
              | some true => obeys_all w rest) = obeys_all w rest from rfl, ih]
        constructor
        · intro h e' he'
          rcases List.mem_cons.mp he' with rfl | h2
          · exact (obeys_constraint_true_iff w e').mp he
          · exact h e' h2
        · intro h e' he'
          exact h e' (List.mem_cons_of_mem _ he')

/-- C5: for a word `w` and a pattern whose constraint indices are within
`w`'s bounds, `matches` succeeds with `true` exactly when no letter of `w`
is disallowed, every minimum-count requirement is met, and every positional
constraint holds. -/
theorem C5_theorem (w : Word) (p : Pattern)
    (_hb : ∀ e ∈ p.constraints, e.1 < w.word.length) :
    w.matches p = some true ↔
      ((∀ ch ∈ p.disallowed, ¬ ch ∈ w.word) ∧
       (∀ e ∈ p.must_contain, e.2 ≤ w.word.count e.1) ∧
       (∀ e ∈ p.constraints, constraint_sat w e)) := by
  unfold Word.matches
  cases hd : p.disallowed.any (fun ch => w.has_letter ch) with
  | true =>
    rw [if_pos rfl]
    constructor
    · intro h; simp at h
    · intro h
      rcases List.any_eq_true.mp hd with ⟨ch, hch, hin⟩
      have hmem : ch ∈ w.word := by simpa [Word.has_letter] using hin
      exact absurd hmem (h.1 ch hch)
  | false =>
    cases hm : p.must_contain.any (fun e => w.num_occurrences e.1 < e.2) with
    | true =>
      rw [if_neg (by simp), if_pos rfl]
      constructor
      · intro h; simp at h
      · intro h
        rcases List.any_eq_true.mp hm with ⟨e, he, hlt⟩
        have h2 := h.2.1 e he
        have h3 : w.word.count e.1 < e.2 := by
          simpa [Word.num_occurrences] using hlt
        omega
    | false =>
      rw [if_neg (by simp), if_neg (by simp), obeys_all_true_iff]
      constructor
      · intro h
        refine ⟨?_, ?_, h⟩
        · intro ch hch
          have := List.any_eq_false.mp hd ch hch
          simpa [Word.has_letter] using this
        · intro e he
          have := List.any_eq_false.mp hm e he
          simp only [Word.num_occurrences, decide_eq_true_eq, Nat.not_lt] at this
          exact this
      · exact fun h => h.2.2

/-- C5 witness: the iff instantiated at the repository test word `mocha`
against the third `test_matches` pattern (all constraint indices are within
bounds). -/
theorem C5_witness :
    (Word.ofString "mocha").matches
        { disallowed := ['t', 'b', 'i', 'n', 'g', 's', 'z', 'e', 'l', 'u', 'y', 'r'],
          must_contain := [('a', 1), ('o', 1), ('h', 1), ('c', 1)],
          constraints := [(0, PlaceConstraint.IsNotChars ['s', 'l', 'b', 'a']),
                          (1, PlaceConstraint.IsChar 'o'),
                          (2, PlaceConstraint.IsNotChars ['a', 'n', 't', 'y']),
                          (3, PlaceConstraint.IsNotChars ['r', 'a', 'o', 'g']),
                          (4, PlaceConstraint.IsNotChars ['e', 'c', 'h', 'y'])] }
      = some true ↔
      ((∀ ch ∈ (['t', 'b', 'i', 'n', 'g', 's', 'z', 'e', 'l', 'u', 'y', 'r'] : List Char),
          ¬ ch ∈ (Word.ofString "mocha").word) ∧
       (∀ e ∈ ([('a', 1), ('o', 1), ('h', 1), ('c', 1)] : List (Char × Nat)),
          e.2 ≤ (Word.ofString "mocha").word.count e.1) ∧
       (∀ e ∈ ([(0, PlaceConstraint.IsNotChars ['s', 'l', 'b', 'a']),
                (1, PlaceConstraint.IsChar 'o'),
                (2, PlaceConstraint.IsNotChars ['a', 'n', 't', 'y']),
                (3, PlaceConstraint.IsNotChars ['r', 'a', 'o', 'g']),
                (4, PlaceConstraint.IsNotChars ['e', 'c', 'h', 'y'])] :
                  List (Nat × PlaceConstraint)),
          constraint_sat (Word.ofString "mocha") e)) :=
  C5_theorem _ _ (by decide)

/-! ## Claim C3 -/

/-- Letter `c` is realized with at least one non-Gray (Yellow/Green) tile in
the guess: exactly the letters that end up as keys of the `count_map` of
`ingest`. -/
def counted_in (g : Guess) (c : Char) : Prop :=
  ∃ t ∈ g.paired, t.2.1 = c ∧ ¬ t.2.2 = TileOutcome.Gray

/-- Letter `c` is realized with at least one Gray tile in the guess:
exactly the letters pushed onto `to_disallow` by `ingest`. -/
def gray_in (g : Guess) (c : Char) : Prop :=
  ∃ t ∈ g.paired, t.2.1 = c ∧ t.2.2 = TileOutcome.Gray

/-- The consistency invariant of the spec: no letter both carries a
minimum-count requirement of at least 1 and is globally disallowed. -/
def consistent (p : Pattern) : Prop :=
  ∀ e ∈ p.must_contain, 1 ≤ e.2 → ¬ e.1 ∈ p.disallowed

instance (g : Guess) (c : Char) : Decidable (counted_in g c) := by
  unfold counted_in; infer_instance

instance (g : Guess) (c : Char) : Decidable (gray_in g c) := by
  unfold gray_in; infer_instance

instance (p : Pattern) : Decidable (consistent p) := by
  unfold consistent; infer_instance

theorem al_incr_mem {m : List (Char × Nat)} {x c : Char} {v : Nat}
    (h : (c, v) ∈ al_incr m x) : (∃ v', (c, v') ∈ m) ∨ c = x := by
  induction m with
  | nil =>
    simp only [al_incr, List.mem_singleton, Prod.mk.injEq] at h
    exact Or.inr h.1
  | cons e rest ih =>
    rcases e with ⟨k, w⟩
    simp only [al_incr] at h
    by_cases hk : k = x
    · rw [if_pos hk] at h
      rcases List.mem_cons.mp h with h1 | h1
      · rcases Prod.mk.injEq .. ▸ h1 with ⟨rfl, -⟩
        exact Or.inr hk
      · exact Or.inl ⟨v, List.mem_cons_of_mem _ h1⟩
    · rw [if_neg hk] at h
      rcases List.mem_cons.mp h with h1 | h1
      · exact Or.inl ⟨v, List.mem_cons.mpr (Or.inl h1)⟩
      · rcases ih h1 with ⟨v', hv'⟩ | h2
        · exact Or.inl ⟨v', List.mem_cons_of_mem _ hv'⟩
        · exact Or.inr h2

theorem al_incr_key_self (m : List (Char × Nat)) (x : Char) :
    ∃ v, (x, v) ∈ al_incr m x := by
  induction m with
  | nil => exact ⟨1, by simp [al_incr]⟩
  | cons e rest ih =>
    rcases e with ⟨k, w⟩
    simp only [al_incr]
    by_cases hk : k = x
    · exact ⟨w + 1, by rw [if_pos hk, hk]; exact List.mem_cons_self _ _⟩
    · rcases ih with ⟨v, hv⟩
      exact ⟨v, by rw [if_neg hk]; exact List.mem_cons_of_mem _ hv⟩

theorem al_incr_key_pres {m : List (Char × Nat)} {c : Char} {v : Nat}
    (h : (c, v) ∈ m) (x : Char) : ∃ v', (c, v') ∈ al_incr m x := by
  induction m with
  | nil => cases h
  | cons e rest ih =>
    rcases e with ⟨k, w⟩
    simp only [al_incr]
    by_cases hk : k = x
    · rw [if_pos hk]
      rcases List.mem_cons.mp h with h1 | h1
      · rcases Prod.mk.injEq .. ▸ h1 with ⟨rfl, rfl⟩
        exact ⟨v + 1, List.mem_cons_self _ _⟩
      · exact ⟨v, List.mem_cons_of_mem _ h1⟩
    · rw [if_neg hk]
      rcases List.mem_cons.mp h with h1 | h1
      · rcases Prod.mk.injEq .. ▸ h1 with ⟨rfl, rfl⟩
        exact ⟨v, List.mem_cons_self _ _⟩
      · rcases ih h1 with ⟨v', hv'⟩
        exact ⟨v', List.mem_cons_of_mem _ hv'⟩

/-- The `count_map` component of the ingest loop, in isolation: Yellow and
Green tiles bump the counter of their letter. -/
def cm_fold (tiles : List (Nat × Char × TileOutcome)) (cm : List (Char × Nat)) :
    List (Char × Nat) :=
  tiles.foldl
    (fun m t => if t.2.2 = TileOutcome.Gray then m else al_incr m t.2.1) cm

/-- The `to_disallow` component of the ingest loop, in isolation: the Gray
letters in tile order. -/
def grays (tiles : List (Nat × Char × TileOutcome)) : List Char :=
  tiles.filterMap
    (fun t => if t.2.2 = TileOutcome.Gray then some t.2.1 else none)

theorem ingest_fold_cm (d0 : List Char) (tiles : List (Nat × Char × TileOutcome))
    (cm : List (Char × Nat)) (td : List Char) (cs : List (Nat × PlaceConstraint)) :
    (tiles.foldl (ingest_step d0) (cm, td, cs)).1 = cm_fold tiles cm := by
  induction tiles generalizing cm td cs with
  | nil => rfl
  | cons t rest ih =>
    rcases t with ⟨idx, ch, oc⟩
    rcases oc <;>
      simp only [List.foldl_cons, ingest_step, cm_fold, List.foldl_cons] <;>
      rw [← cm_fold] <;> simp [ih]

theorem ingest_fold_td (d0 : List Char) (tiles : List (Nat × Char × TileOutcome))
    (cm : List (Char × Nat)) (td : List Char) (cs : List (Nat × PlaceConstraint)) :
    (tiles.foldl (ingest_step d0) (cm, td, cs)).2.1 = td ++ grays tiles := by
  induction tiles generalizing cm td cs with
  | nil => simp [grays]
  | cons t rest ih =>
    rcases t with ⟨idx, ch, oc⟩
    rcases oc <;>
      simp only [List.foldl_cons, ingest_step, grays, List.filterMap_cons] <;>
      rw [← grays] <;> simp [ih]

theorem cm_fold_mem {tiles : List (Nat × Char × TileOutcome)}
    {cm : List (Char × Nat)} {c : Char} {v : Nat}
    (h : (c, v) ∈ cm_fold tiles cm) :
    (∃ v', (c, v') ∈ cm) ∨ ∃ t ∈ tiles, t.2.1 = c ∧ ¬ t.2.2 = TileOutcome.Gray := by
  induction tiles generalizing cm with
  | nil => exact Or.inl ⟨v, h⟩
  | cons t rest ih =>
    rcases ht : t.2.2 with _ | _ | _
    · rcases ih (by simpa [cm_fold, ht] using h) with h1 | ⟨t', ht', h2⟩
      · exact Or.inl h1
      · exact Or.inr ⟨t', List.mem_cons_of_mem _ ht', h2⟩
    all_goals {
      rcases ih (by simpa [cm_fold, ht] using h) with ⟨v', hv'⟩ | ⟨t', ht', h2⟩
      · rcases al_incr_mem hv' with h1 | rfl
        · exact Or.inl h1
        · exact Or.inr ⟨t, List.mem_cons_self _ _, rfl, by simp [ht]⟩
      · exact Or.inr ⟨t', List.mem_cons_of_mem _ ht', h2⟩
    }

theorem cm_fold_key_pres {cm : List (Char × Nat)} {c : Char} {v : Nat}
    (tiles : List (Nat × Char × TileOutcome)) (h : (c, v) ∈ cm) :
    ∃ v', (c, v') ∈ cm_fold tiles cm := by
  induction tiles generalizing cm v with
  | nil => exact ⟨v, h⟩
  | cons t rest ih =>
    rcases ht : t.2.2 with _ | _ | _
    · rcases ih h with ⟨v', hv'⟩
      exact ⟨v', by simpa [cm_fold, ht] using hv'⟩
    all_goals {
      rcases al_incr_key_pres h t.2.1 with ⟨v1, hv1⟩
      rcases ih hv1 with ⟨v', hv'⟩
      exact ⟨v', by simpa [cm_fold, ht] using hv'⟩
    }

theorem cm_fold_key_of_tile {tiles : List (Nat × Char × TileOutcome)}
    {c : Char} (cm : List (Char × Nat))
    (h : ∃ t ∈ tiles, t.2.1 = c ∧ ¬ t.2.2 = TileOutcome.Gray) :
    ∃ v, (c, v) ∈ cm_fold tiles cm := by
  induction tiles generalizing cm with
  | nil => rcases h with ⟨t, ht, -⟩; cases ht
  | cons t rest ih =>
    rcases h with ⟨t', ht', hc, hoc⟩
    rcases List.mem_cons.mp ht' with rfl | hmem
    · rcases ht : t'.2.2 with _ | _ | _
      · exact absurd ht hoc
      all_goals {
        subst hc
        rcases al_incr_key_self cm t'.2.1 with ⟨v1, hv1⟩
        rcases cm_fold_key_pres rest hv1 with ⟨v', hv'⟩
        exact ⟨v', by simpa [cm_fold, ht] using hv'⟩
      }
    · rcases ht : t.2.2 <;>
        exact ih _ ⟨t', hmem, hc, hoc⟩ |>.imp (fun v' hv' => by simpa [cm_fold, ht] using hv')

theorem al_get_eq_none_iff (m : List (Char × Nat)) (c : Char) :
    al_get m c = none ↔ ∀ e ∈ m, ¬ e.1 = c := by
  simp [al_get, List.find?_eq_none]

theorem al_max_insert_mem {m : List (Char × Nat)} {x c : Char} {v cnt : Nat}
    (h : (c, v) ∈ al_max_insert m x cnt) : (c, v) ∈ m ∨ c = x := by
  induction m with
  | nil =>
    simp only [al_max_insert, List.mem_singleton, Prod.mk.injEq] at h
    exact Or.inr h.1
  | cons e rest ih =>
    rcases e with ⟨k, w⟩
    simp only [al_max_insert] at h
    by_cases hk : k = x
    · rw [if_pos hk] at h
      rcases List.mem_cons.mp h with h1 | h1
      · rcases Prod.mk.injEq .. ▸ h1 with ⟨rfl, -⟩
        exact Or.inr hk
      · exact Or.inl (List.mem_cons_of_mem _ h1)
    · rw [if_neg hk] at h
      rcases List.mem_cons.mp h with h1 | h1
      · exact Or.inl (List.mem_cons.mpr (Or.inl h1))
      · rcases ih h1 with h2 | h2
        · exact Or.inl (List.mem_cons_of_mem _ h2)
        · exact Or.inr h2

theorem must_fold_mem {cml m0 : List (Char × Nat)} {c : Char} {v : Nat}
    (h : (c, v) ∈ cml.foldl (fun m e => al_max_insert m e.1 e.2) m0) :
    (c, v) ∈ m0 ∨ ∃ e ∈ cml, e.1 = c := by
  induction cml generalizing m0 with
  | nil => exact Or.inl h
  | cons e0 rest ih =>
    rcases ih h with h1 | ⟨e', he', h2⟩
    · rcases al_max_insert_mem h1 with h2 | h2
      · exact Or.inl h2
      · exact Or.inr ⟨e0, List.mem_cons_self _ _, h2.symm⟩
    · exact Or.inr ⟨e', List.mem_cons_of_mem _ he', h2⟩

theorem dis_fold_mem {cm : List (Char × Nat)} {td d : List Char} {c : Char}
    (h : c ∈ td.foldl
      (fun d ch =>
        if (al_get cm ch).isNone ∧ ¬ d.contains ch then d ++ [ch] else d) d) :
    c ∈ d ∨ (c ∈ td ∧ al_get cm c = none) := by
  induction td generalizing d with
  | nil => exact Or.inl h
  | cons ch rest ih =>
    have h' : c ∈ rest.foldl
        (fun d ch =>
          if (al_get cm ch).isNone ∧ ¬ d.contains ch then d ++ [ch] else d)
        (if (al_get cm ch).isNone ∧ ¬ d.contains ch then d ++ [ch] else d) := h
    rcases ih h' with h1 | ⟨h1, h2⟩
    · by_cases hc : (al_get cm ch).isNone = true ∧ ¬ d.contains ch = true
      · rw [if_pos hc] at h1
        rcases List.mem_append.mp h1 with h2 | h2
        · exact Or.inl h2
        · rcases List.mem_singleton.mp h2 with rfl
          exact Or.inr ⟨List.mem_cons_self _ _, Option.isNone_iff_eq_none.mp hc.1⟩
      · rw [if_neg hc] at h1
        exact Or.inl h1
    · exact Or.inr ⟨List.mem_cons_of_mem _ h1, h2⟩

/-- C3 counterexample: the pattern with `must_contain = {e: 1}` and empty
`disallowed` satisfies the invariant, but ingesting a guess in which `e` is
Gray-only adds `e` to `disallowed` while keeping its minimum count, because
`ingest` never consults `must_contain` when disallowing. -/
theorem C3_counterexample :
    consistent { disallowed := [], must_contain := [('e', 1)], constraints := [] } ∧
    ¬ consistent (Pattern.ingest
        { disallowed := [], must_contain := [('e', 1)], constraints := [] }
        ⟨['e'], [TileOutcome.Gray]⟩) :=
  ⟨by decide, by decide⟩

theorem grays_mem {tiles : List (Nat × Char × TileOutcome)} {c : Char} :
    c ∈ grays tiles ↔ ∃ t ∈ tiles, t.2.1 = c ∧ t.2.2 = TileOutcome.Gray := by
  simp only [grays, List.mem_filterMap]
  constructor
  · rintro ⟨t, ht, hf⟩
    by_cases h : t.2.2 = TileOutcome.Gray
    · rw [if_pos h] at hf
      exact ⟨t, ht, Option.some.inj hf, h⟩
    · rw [if_neg h] at hf
      cases hf
  · rintro ⟨t, ht, hc, h⟩
    exact ⟨t, ht, by rw [if_pos h, hc]⟩

/-- C3 (amended): ingesting preserves the consistency invariant provided the
guess is consistent with the prior knowledge: no letter with a recorded
minimum count of at least 1 is Gray-only in the guess, and no counted
(Yellow/Green) letter of the guess is already disallowed. -/
theorem C3_theorem (p : Pattern) (g : Guess)
    (hp : consistent p)
    (hA : ∀ e ∈ p.must_contain, 1 ≤ e.2 → gray_in g e.1 → counted_in g e.1)
    (hB : ∀ t ∈ g.paired, ¬ t.2.2 = TileOutcome.Gray → ¬ t.2.1 ∈ p.disallowed) :
    consistent (p.ingest g) := by
  rintro ⟨c, v⟩ he h1 hdis
  simp only [Pattern.ingest, ingest_fold_cm, ingest_fold_td, List.nil_append] at he hdis
  rcases must_fold_mem he with hm | ⟨e', he', hc⟩
  · rcases dis_fold_mem hdis with hd | ⟨hd1, hd2⟩
    · exact hp (c, v) hm h1 hd
    · have hgray : gray_in g c := by
        rcases grays_mem.mp hd1 with ⟨t, ht, h2, h3⟩
        exact ⟨t, ht, h2, h3⟩
      have hcounted := hA (c, v) hm h1 hgray
      rcases cm_fold_key_of_tile [] hcounted with ⟨v1, hv1⟩
      exact (al_get_eq_none_iff _ c).mp hd2 (c, v1) hv1 rfl
  · rcases e' with ⟨c', w⟩
    cases hc
    have hcounted : counted_in g c' := by
      rcases cm_fold_mem he' with ⟨v0, hv0⟩ | ⟨t, ht, h2, h3⟩
      · cases hv0
      · exact ⟨t, ht, h2, h3⟩
    rcases dis_fold_mem hdis with hd | ⟨hd1, hd2⟩
    · rcases hcounted with ⟨t, ht, hc2, hoc⟩
      exact hB t ht hoc (hc2 ▸ hd)
    · exact (al_get_eq_none_iff _ c').mp hd2 (c', w) he' rfl

/-- C3 witness: the amended preservation applied to a consistent pattern and
a guess consistent with it (letter `a` Yellow, letter `b` Gray). -/
theorem C3_witness :
    consistent (Pattern.ingest
      { disallowed := ['z'], must_contain := [('a', 1)], constraints := [] }
      ⟨['a', 'b'], [TileOutcome.Yellow, TileOutcome.Gray]⟩) :=
  C3_theorem _ _ (by decide) (by decide) (by decide)

/-! ## Claim C9 -/

/-- Keep the elements of `l` at the positions marked `true` in `bs`
(truncating at the shorter of the two lists): the declarative reading of
gathering the picked indices from a sequence. -/
def select_true (bs : List Bool) (l : List α) : List α :=
  (bs.zip l).filterMap (fun p => if p.1 then some p.2 else none)

theorem select_true_nil_left (l : List α) : select_true [] l = [] := rfl

theorem select_true_nil_right (bs : List Bool) :
    select_true bs ([] : List α) = [] := by
  cases bs <;> rfl

theorem select_true_cons_true (bs : List Bool) (x : α) (l : List α) :
    select_true (true :: bs) (x :: l) = x :: select_true bs l := rfl

theorem select_true_cons_false (bs : List Bool) (x : α) (l : List α) :
    select_true (false :: bs) (x :: l) = select_true bs l := rfl

theorem pick_indices_cons_true (n : Nat) (bs : List Bool) :
    pick_indices n (true :: bs) = n :: pick_indices (n + 1) bs := rfl

theorem pick_indices_cons_false (n : Nat) (bs : List Bool) :
    pick_indices n (false :: bs) = pick_indices (n + 1) bs := rfl

theorem pick_indices_shift (bs : List Bool) (n : Nat) :
    pick_indices (n + 1) bs = (pick_indices n bs).map (· + 1) := by
  induction bs generalizing n with
  | nil => rfl
  | cons b rest ih =>
    rcases b with _ | _
    · rw [pick_indices_cons_false, pick_indices_cons_false, ih (n + 1)]
    · rw [pick_indices_cons_true, pick_indices_cons_true, ih (n + 1), List.map_cons]

theorem filterMap_get_shift (ix : List Nat) (x : α) (l : List α) :
    (ix.map (· + 1)).filterMap (fun i => (x :: l)[i]?) =
      ix.filterMap (fun i => l[i]?) := by
  induction ix with
  | nil => rfl
  | cons i rest ih =>
    simp only [List.map_cons, List.filterMap_cons, List.getElem?_cons_succ]
    rcases h : l[i]? with _ | v <;> simp [ih]

theorem filterMap_get_nil (ix : List Nat) :
    ix.filterMap (fun i => ([] : List α)[i]?) = [] := by
  induction ix with
  | nil => rfl
  | cons i rest ih => simp [List.filterMap_cons, ih]

theorem pick_filterMap (bs : List Bool) (l : List α) :
    (pick_indices 0 bs).filterMap (fun i => l[i]?) = select_true bs l := by
  induction bs generalizing l with
  | nil => rfl
  | cons b rest ih =>
    rcases l with _ | ⟨x, l'⟩
    · rw [filterMap_get_nil, select_true_nil_right]
    · rcases b with _ | _
      · rw [pick_indices_cons_false, pick_indices_shift, filterMap_get_shift, ih,
          select_true_cons_false]
      · rw [pick_indices_cons_true, List.filterMap_cons, pick_indices_shift,
          filterMap_get_shift, ih, select_true_cons_true]
        simp

theorem matches_list_length {ws : List Word} {p : Pattern} {bs : List Bool}
    (h : matches_list ws p = some bs) : bs.length = ws.length := by
  induction ws generalizing bs with
  | nil => cases h; rfl
  | cons w rest ih =>
    unfold matches_list at h
    rcases hm : w.matches p with _ | b <;> rw [hm] at h
    · cases h
    · rcases hr : matches_list rest p with _ | bs' <;> rw [hr] at h
      · cases h
      · cases h
        simp [ih hr]

theorem matches_list_select_true {ws : List Word} {p : Pattern} {bs : List Bool}
    (h : matches_list ws p = some bs) :
    matches_list (select_true bs ws) p =
      some (List.replicate (select_true bs ws).length true) := by
  induction ws generalizing bs with
  | nil => cases h; rfl
  | cons w rest ih =>
    unfold matches_list at h
    rcases hm : w.matches p with _ | b <;> rw [hm] at h
    · cases h
    · rcases hr : matches_list rest p with _ | bs' <;> rw [hr] at h
      · cases h
      · cases h
        rcases b with _ | _
        · rw [select_true_cons_false]
          exact ih hr
        · rw [select_true_cons_true]
          have ihr := ih hr
          unfold matches_list
          rw [hm, ihr]
          simp [List.replicate_succ]

theorem select_true_length_le_full {bs : List Bool} {l : List α} {l2 : List β}
    (h : l2.length = bs.length) :
    (select_true bs l).length ≤ (select_true bs l2).length := by
  induction bs generalizing l l2 with
  | nil => simp [select_true_nil_left]
  | cons b rest ih =>
    rcases l2 with _ | ⟨y, l2'⟩
    · exact absurd h (by simp)
    · simp only [List.length_cons] at h
      have h' : l2'.length = rest.length := Nat.add_right_cancel h
      rcases l with _ | ⟨x, l'⟩
      · simp [select_true_nil_right]
      · rcases b with _ | _
        · rw [select_true_cons_false, select_true_cons_false]
          exact ih h'
        · rw [select_true_cons_true, select_true_cons_true]
          simp only [List.length_cons]
          exact Nat.add_le_add_right (ih h') 1

theorem select_true_replicate (k : Nat) (l : List α) :
    select_true (List.replicate k true) l = l.take k := by
  induction k generalizing l with
  | zero => simp [select_true_nil_left]
  | succ n ih =>
    rcases l with _ | ⟨x, l'⟩
    · simp [select_true_nil_right]
    · rw [List.replicate_succ, select_true_cons_true, List.take_succ_cons, ih]

/-- C9: filtering is idempotent — if filtering a collection by knowledge `K`
produces a sub-collection, filtering that sub-collection by `K` again
reproduces it exactly (same word and score sequences). -/
theorem C9_theorem (wl : Wordlist) (p : Pattern) (sub : Wordlist)
    (h : filter_pattern wl p = some sub) : filter_pattern sub p = some sub := by
  unfold filter_pattern at h
  rcases hml : matches_list wl.words p with _ | bs <;> rw [hml] at h
  · cases h
  · simp only [Option.some.injEq] at h
    have hw : sub.words = select_true bs wl.words := by
      rw [← h]; exact (pick_filterMap bs wl.words).symm ▸ rfl
    have hs : sub.scores = select_true bs wl.scores := by
      rw [← h]; exact (pick_filterMap bs wl.scores).symm ▸ rfl
    have hml2 := matches_list_select_true hml
    rw [← hw] at hml2
    have hwords : (pick_indices 0 (List.replicate sub.words.length true)).filterMap
        (fun i => sub.words[i]?) = sub.words := by
      rw [pick_filterMap, select_true_replicate, List.take_length]
    have hscores : (pick_indices 0 (List.replicate sub.words.length true)).filterMap
        (fun i => sub.scores[i]?) = sub.scores := by
      rw [pick_filterMap, select_true_replicate]
      have h1 : sub.scores.length ≤ sub.words.length := by
        rw [hw, hs]
        exact select_true_length_le_full (matches_list_length hml).symm
      exact List.take_of_length_le h1
    unfold filter_pattern
    rw [hml2]
    show some (Wordlist.mk
        ((pick_indices 0 (List.replicate sub.words.length true)).filterMap
          (fun i => sub.words[i]?))
        ((pick_indices 0 (List.replicate sub.words.length true)).filterMap
          (fun i => sub.scores[i]?))) = some sub
    rw [hwords, hscores]

theorem C9_witness :
    filter_pattern (Wordlist.mk [Word.ofString "ba"] [(2 : ℚ)])
      (Pattern.mk ['z'] [('a', 1)] [(0, PlaceConstraint.IsChar 'b')]) =
    some (Wordlist.mk [Word.ofString "ba"] [(2 : ℚ)]) :=
  C9_theorem
    (Wordlist.mk [Word.ofString "ab", Word.ofString "ba"] [(1 : ℚ), (2 : ℚ)])
    _ _
    (by decide)

/-! ## Claims C1 and C7 -/

theorem insert_desc_cons_le (x y : ℚ × Word) (t : List (ℚ × Word))
    (h : y.1 ≤ x.1) : insert_desc x (y :: t) = x :: y :: t := by
  conv_lhs => unfold insert_desc
  rw [if_pos h]

theorem insert_desc_cons_gt (x y : ℚ × Word) (t : List (ℚ × Word))
    (h : ¬ y.1 ≤ x.1) : insert_desc x (y :: t) = y :: insert_desc x t := by
  conv_lhs => unfold insert_desc
  rw [if_neg h]

theorem insert_desc_mem {x a : ℚ × Word} {s : List (ℚ × Word)} :
    a ∈ insert_desc x s ↔ a = x ∨ a ∈ s := by
  induction s with
  | nil => simp [insert_desc]
  | cons y t ih =>
    unfold insert_desc
    by_cases h : y.1 ≤ x.1
    · rw [if_pos h]
      simp [List.mem_cons]
    · rw [if_neg h]
      simp only [List.mem_cons, ih]
      tauto

theorem sort_desc_mem {a : ℚ × Word} {l : List (ℚ × Word)} :
    a ∈ sort_desc l ↔ a ∈ l := by
  induction l with
  | nil => simp [sort_desc]
  | cons x xs ih =>
    unfold sort_desc
    rw [insert_desc_mem, ih, List.mem_cons]

theorem insert_desc_sorted {x : ℚ × Word} {s : List (ℚ × Word)}
    (hs : s.Pairwise (fun p q => q.1 ≤ p.1)) :
    (insert_desc x s).Pairwise (fun p q => q.1 ≤ p.1) := by
  induction s with
  | nil => simp [insert_desc]
  | cons y t ih =>
    unfold insert_desc
    rcases List.pairwise_cons.mp hs with ⟨hy, ht⟩
    by_cases h : y.1 ≤ x.1
    · rw [if_pos h]
      refine List.pairwise_cons.mpr ⟨?_, hs⟩
      intro b hb
      rcases List.mem_cons.mp hb with rfl | hb
      · exact h
      · exact le_trans (hy b hb) h
    · rw [if_neg h]
      refine List.pairwise_cons.mpr ⟨?_, ih ht⟩
      intro b hb
      rcases insert_desc_mem.mp hb with rfl | hb
      · exact le_of_lt (lt_of_not_le h)
      · exact hy b hb

theorem sort_desc_sorted (l : List (ℚ × Word)) :
    (sort_desc l).Pairwise (fun p q => q.1 ≤ p.1) := by
  induction l with
  | nil => simp [sort_desc]
  | cons x xs ih => exact insert_desc_sorted ih

theorem find?_strengthen {p q : α → Bool} {l : List α} {y : α}
    (himp : ∀ a, q a = true → p a = true) (h : l.find? p = some y)
    (hq : q y = true) : l.find? q = some y := by
  induction l with
  | nil => cases h
  | cons a t ih =>
    rcases hqa : q a with _ | _
    · have hpa : p a = false := by
        rcases hpa : p a with _ | _
        · rfl
        · rw [List.find?_cons_of_pos _ hpa] at h
          cases h
          rw [hqa] at hq
          cases hq
      rw [List.find?_cons_of_neg _ (by simp [hpa])] at h
      rw [List.find?_cons_of_neg _ (by simp [hqa])]
      exact ih h
    · have hpa := himp a hqa
      rw [List.find?_cons_of_pos _ hpa] at h
      rw [List.find?_cons_of_pos _ hqa]
      exact h

/-- The head of the descending stable sort is the earliest pair whose gain
dominates the whole list: exactly the "first maximal value wins" rule. -/
theorem sort_desc_head (l : List (ℚ × Word)) :
    (sort_desc l).head? = l.find? (fun p => l.all (fun q => q.1 ≤ p.1)) := by
  induction l with
  | nil => rfl
  | cons x xs ih =>
    show (insert_desc x (sort_desc xs)).head? = _
    rcases hs : sort_desc xs with _ | ⟨y, t⟩
    · have hxs : xs = [] := by
        have hc := congrArg List.length hs
        have hlen : (sort_desc xs).length = xs.length := by
          clear hs hc ih
          induction xs with
          | nil => rfl
          | cons a r ihr =>
            show (insert_desc a (sort_desc r)).length = _
            have hone : ∀ (z : ℚ × Word) (s : List (ℚ × Word)),
                (insert_desc z s).length = s.length + 1 := by
              intro z s
              induction s with
              | nil => rfl
              | cons b u ihu =>
                unfold insert_desc
                by_cases hb : b.1 ≤ z.1
                · rw [if_pos hb]; rfl
                · rw [if_neg hb]; simp [ihu]
            rw [hone, ihr]
            rfl
        rw [hlen] at hc
        exact List.length_eq_zero.mp (by simpa using hc)
      subst hxs
      show (insert_desc x []).head? = _
      simp [insert_desc, List.find?]
    · have hy_mem : y ∈ xs := sort_desc_mem.mp (hs ▸ List.mem_cons_self y t)
      have hy_max : ∀ q ∈ xs, q.1 ≤ y.1 := by
        intro q hq
        rcases List.mem_cons.mp (hs ▸ sort_desc_mem.mpr hq) with rfl | hq2
        · exact le_refl _
        · have := sort_desc_sorted xs
          rw [hs] at this
          exact (List.pairwise_cons.mp this).1 q hq2
      show (insert_desc x (y :: t)).head? = _
      by_cases hxy : y.1 ≤ x.1
      · rw [insert_desc_cons_le x y t hxy]
        have hpred : ((x :: xs).all (fun q => q.1 ≤ x.1)) = true := by
          rw [List.all_eq_true]
          intro q hq
          rcases List.mem_cons.mp hq with rfl | hq2
          · simp
          · simpa using le_trans (hy_max q hq2) hxy
        rw [@List.find?_cons_of_pos _
          (fun p => (x :: xs).all (fun q => decide (q.1 ≤ p.1))) x xs hpred]
        rfl
      · rw [insert_desc_cons_gt x y t hxy]
        have hpredx : ((x :: xs).all (fun q => q.1 ≤ x.1)) = false := by
          rcases hc : (x :: xs).all (fun q => q.1 ≤ x.1) with _ | _
          · rfl
          · have h2 := List.all_eq_true.mp hc y (List.mem_cons_of_mem _ hy_mem)
            simp only [decide_eq_true_eq] at h2
            exact absurd h2 hxy
        rw [@List.find?_cons_of_neg _
          (fun p => (x :: xs).all (fun q => decide (q.1 ≤ p.1))) x xs (by simp [hpredx])]
        have hih : xs.find? (fun p => xs.all (fun q => q.1 ≤ p.1)) = some y := by
          rw [← ih, hs]
          rfl
        rw [show (y :: insert_desc x t).head? = some y from rfl]
        refine (find?_strengthen ?_ hih ?_).symm
        · intro a ha
          rw [List.all_eq_true] at ha ⊢
          intro q hq
          exact ha q (List.mem_cons_of_mem _ hq)
        · rw [List.all_eq_true]
          intro q hq
          rcases List.mem_cons.mp hq with rfl | hq2
          · simpa using le_of_lt (lt_of_not_le hxy)
          · simpa using hy_max q hq2

theorem mapM_eq_some_map {l : List α} {f : α → Option β} {g : α → β}
    (h : ∀ a ∈ l, f a = some (g a)) : l.mapM f = some (l.map g) := by
  induction l with
  | nil => rfl
  | cons a rest ih =>
    rw [List.mapM_cons, h a (List.mem_cons_self _ _),
      ih (fun a ha => h a (List.mem_cons_of_mem _ ha))]
    rfl

theorem sort_desc_of_const (q : ℚ) (l : List Word) :
    sort_desc (l.map (fun g => (q, g))) = l.map (fun g => (q, g)) := by
  induction l with
  | nil => rfl
  | cons a rest ih =>
    show insert_desc (q, a) (sort_desc (rest.map (fun g => (q, g)))) = _
    rw [ih]
    cases rest with
    | nil => rfl
    | cons b rb =>
      show insert_desc (q, a) ((q, b) :: List.map (fun g => (q, g)) rb) = _
      rw [insert_desc_cons_le _ _ _ (le_refl q)]
      rfl

/-- C1 (amended): `chosen_guess` is `None` when the allowed-guess list is
empty; an empty extant candidate set alone does NOT produce `None` — with a
nonempty allowed list it returns the first allowed guess (every guess then
scores a gain of zero and the stable descending sort keeps list order). -/
theorem C1_theorem (ent : Nat → ℚ) (st : EntropyStrategy) :
    (st.guesslist.words = [] → chosen_guess ent st = none) ∧
    (st.extant.words = [] → chosen_guess ent st = st.guesslist.words.head?) := by
  constructor
  · intro h
    unfold chosen_guess gain_pairs
    rw [h]
    rfl
  · intro h
    unfold chosen_guess gain_pairs
    have hmap : st.guesslist.words.mapM (fun guess =>
        (possible_patterns st.extant.words guess).bind
          (fun pats => (total_gain ent st guess pats).map (fun g => (g, guess)))) =
        some (st.guesslist.words.map (fun g => ((0 : ℚ), g))) := by
      apply mapM_eq_some_map
      intro a _
      rw [h]
      rfl
    rw [hmap]
    show Option.map (fun x => x.2)
        (sort_desc (st.guesslist.words.map (fun g => ((0 : ℚ), g)))).head? =
      st.guesslist.words.head?
    rw [sort_desc_of_const]
    cases st.guesslist.words with
    | nil => rfl
    | cons g gs => rfl

/-- C1 counterexample: a strategy state with an EMPTY extant candidate set
but a one-word allowed list returns `Some` of that word, not the empty
result claimed for an empty extant set. -/
theorem C1_counterexample :
    (EntropyStrategy.mk Pattern.empty
      (Wordlist.mk [Word.ofString "crane"] [(1 : ℚ)])
      (Wordlist.mk [] [])).extant.words = [] ∧
    chosen_guess (fun _ => 0)
      (EntropyStrategy.mk Pattern.empty
        (Wordlist.mk [Word.ofString "crane"] [(1 : ℚ)])
        (Wordlist.mk [] [])) = some (Word.ofString "crane") := by
  constructor
  · rfl
  · decide

/-- C1 witness: the amended statement applied at a concrete state with an
empty extant set and a nonempty allowed list. -/
theorem C1_witness :
    chosen_guess (fun _ => 0)
      (EntropyStrategy.mk Pattern.empty
        (Wordlist.mk [Word.ofString "slate"] [(1 : ℚ)])
        (Wordlist.mk [] [])) =
      ([Word.ofString "slate"] : List Word).head? :=
  (C1_theorem (fun _ => 0)
    (EntropyStrategy.mk Pattern.empty
      (Wordlist.mk [Word.ofString "slate"] [(1 : ℚ)])
      (Wordlist.mk [] []))).2 rfl

/-- C7: the selection among the scored guesses is deterministic and follows
the "first maximal gain wins" rule: whenever the (input-order-preserving)
parallel scoring produces the pair list `pairs`, `chosen_guess` returns the
word of the earliest pair whose gain dominates every pair in the list. -/
theorem C7_theorem (ent : Nat → ℚ) (st : EntropyStrategy)
    (pairs : List (ℚ × Word)) (h : gain_pairs ent st = some pairs) :
    chosen_guess ent st =
      (pairs.find? (fun p => pairs.all (fun q => q.1 ≤ p.1))).map (·.2) := by
  unfold chosen_guess
  rw [h]
  show Option.map (fun x => x.2) (sort_desc pairs).head? = _
  rw [sort_desc_head]

/-- C7 witness: a concrete state in which two allowed guesses tie at gain 0;
the first of the two is selected. -/
theorem C7_witness :
    chosen_guess (fun n => (n : ℚ))
      (EntropyStrategy.mk Pattern.empty
        (Wordlist.mk [Word.ofString "b", Word.ofString "a"] [(1 : ℚ), (1 : ℚ)])
        (Wordlist.mk [Word.ofString "a"] [(1 : ℚ)])) =
      (([((0 : ℚ), Word.ofString "b"), ((0 : ℚ), Word.ofString "a")].find?
          (fun p => [((0 : ℚ), Word.ofString "b"), ((0 : ℚ), Word.ofString "a")].all
            (fun q => q.1 ≤ p.1))).map (·.2)) :=
  C7_theorem (fun n => (n : ℚ))
    (EntropyStrategy.mk Pattern.empty
      (Wordlist.mk [Word.ofString "b", Word.ofString "a"] [(1 : ℚ), (1 : ℚ)])
      (Wordlist.mk [Word.ofString "a"] [(1 : ℚ)]))
    [((0 : ℚ), Word.ofString "b"), ((0 : ℚ), Word.ofString "a")]
    (by with_unfolding_all rfl)

/-! ## Claim C4 -/

/-- Association-list lookup for the constraints map. -/
def lookupC (m : List (Nat × PlaceConstraint)) (i : Nat) : Option PlaceConstraint :=
  (m.find? (fun e => e.1 = i)).map (·.2)

/-- A letter is compatible with a (possibly absent) positional constraint:
a forced letter must equal it, a forbidden set must not contain it. -/
def compat (oc : Option PlaceConstraint) (c : Char) : Prop :=
  match oc with
  | none => True
  | some (PlaceConstraint.IsChar d) => d = c
  | some (PlaceConstraint.IsNotChars cs) => ¬ c ∈ cs

instance (oc : Option PlaceConstraint) (c : Char) : Decidable (compat oc c) :=
  match oc with
  | none => isTrue trivial
  | some (PlaceConstraint.IsChar d) => inferInstanceAs (Decidable (d = c))
  | some (PlaceConstraint.IsNotChars cs) => inferInstanceAs (Decidable (¬ c ∈ cs))

/-- The Green tiles of the guess agree with the knowledge's positional
constraints at their positions (the letter equals a forced letter there and
avoids a forbidden set there). -/
def green_consistent (p : Pattern) (g : Guess) : Prop :=
  ∀ t ∈ g.paired, t.2.2 = TileOutcome.Green →
    compat (lookupC p.constraints t.1) t.2.1

instance (p : Pattern) (g : Guess) : Decidable (green_consistent p g) := by
  unfold green_consistent; infer_instance

theorem c_add_not_cons_eq (j : Nat) (cons0 : PlaceConstraint)
    (rest : List (Nat × PlaceConstraint)) (i : Nat) (c : Char) (hj : j = i) :
    c_add_not ((j, cons0) :: rest) i c =
      (j, match cons0 with
          | PlaceConstraint.IsChar d => PlaceConstraint.IsChar d
          | PlaceConstraint.IsNotChars cs =>
            PlaceConstraint.IsNotChars (if cs.contains c then cs else cs ++ [c])) :: rest := by
  conv_lhs => unfold c_add_not
  rw [if_pos hj]

theorem c_add_not_cons_ne (j : Nat) (cons0 : PlaceConstraint)
    (rest : List (Nat × PlaceConstraint)) (i : Nat) (c : Char) (hj : ¬ j = i) :
    c_add_not ((j, cons0) :: rest) i c = (j, cons0) :: c_add_not rest i c := by
  conv_lhs => unfold c_add_not
  rw [if_neg hj]

theorem c_set_char_cons_eq (j : Nat) (cons0 : PlaceConstraint)
    (rest : List (Nat × PlaceConstraint)) (i : Nat) (c : Char) (hj : j = i) :
    c_set_char ((j, cons0) :: rest) i c = (j, PlaceConstraint.IsChar c) :: rest := by
  conv_lhs => unfold c_set_char
  rw [if_pos hj]

theorem c_set_char_cons_ne (j : Nat) (cons0 : PlaceConstraint)
    (rest : List (Nat × PlaceConstraint)) (i : Nat) (c : Char) (hj : ¬ j = i) :
    c_set_char ((j, cons0) :: rest) i c = (j, cons0) :: c_set_char rest i c := by
  conv_lhs => unfold c_set_char
  rw [if_neg hj]

theorem c_add_not_sat {w : Word} {m : List (Nat × PlaceConstraint)} {i : Nat} {c : Char}
    (h : ∀ e ∈ c_add_not m i c, constraint_sat w e) :
    ∀ e ∈ m, constraint_sat w e := by
  induction m with
  | nil => intro e he; cases he
  | cons e0 rest ih =>
    rcases e0 with ⟨j, cons0⟩
    intro e he
    by_cases hj : j = i
    · rw [c_add_not_cons_eq j cons0 rest i c hj] at h
      rcases List.mem_cons.mp he with rfl | he2
      · have hsat := h _ (List.mem_cons_self _ _)
        rcases cons0 with d | cs
        · exact hsat
        · rcases hsat with ⟨v, hv, hnot⟩
          refine ⟨v, hv, fun hmem => hnot ?_⟩
          by_cases hcc : (cs.contains c : Bool)
          · rwa [if_pos hcc]
          · rw [if_neg hcc]
            exact List.mem_append_left _ hmem
      · exact h e (List.mem_cons_of_mem _ he2)
    · rw [c_add_not_cons_ne j cons0 rest i c hj] at h
      rcases List.mem_cons.mp he with rfl | he2
      · exact h _ (List.mem_cons_self _ _)
      · exact ih (fun e' he' => h e' (List.mem_cons_of_mem _ he')) e he2

theorem c_set_char_sat {w : Word} {m : List (Nat × PlaceConstraint)} {i : Nat} {c : Char}
    (hcompat : compat (lookupC m i) c)
    (h : ∀ e ∈ c_set_char m i c, constraint_sat w e) :
    ∀ e ∈ m, constraint_sat w e := by
  induction m with
  | nil => intro e he; cases he
  | cons e0 rest ih =>
    rcases e0 with ⟨j, cons0⟩
    intro e he
    by_cases hj : j = i
    · rw [c_set_char_cons_eq j cons0 rest i c hj] at h
      have hlook : lookupC ((j, cons0) :: rest) i = some cons0 := by
        unfold lookupC
        rw [List.find?_cons_of_pos _ (by simpa using hj)]
        rfl
      rw [hlook] at hcompat
      rcases List.mem_cons.mp he with rfl | he2
      · have hsat := h _ (List.mem_cons_self _ _)
        rcases cons0 with d | cs
        · have hd : d = c := hcompat
          unfold constraint_sat at hsat ⊢
          rw [hd]
          exact hsat
        · have hcs : ¬ c ∈ cs := hcompat
          unfold constraint_sat at hsat ⊢
          exact ⟨c, hsat, hcs⟩
      · exact h e (List.mem_cons_of_mem _ he2)
    · rw [c_set_char_cons_ne j cons0 rest i c hj] at h
      have hlook : lookupC ((j, cons0) :: rest) i = lookupC rest i := by
        unfold lookupC
        rw [List.find?_cons_of_neg _ (by simpa using hj)]
      rw [hlook] at hcompat
      rcases List.mem_cons.mp he with rfl | he2
      · exact h _ (List.mem_cons_self _ _)
      · exact ih hcompat (fun e' he' => h e' (List.mem_cons_of_mem _ he')) e he2

theorem lookupC_c_set_char_ne {m : List (Nat × PlaceConstraint)} {i j : Nat} {c : Char}
    (hij : ¬ j = i) : lookupC (c_set_char m i c) j = lookupC m j := by
  induction m with
  | nil =>
    show lookupC [(i, PlaceConstraint.IsChar c)] j = lookupC [] j
    unfold lookupC
    rw [List.find?_cons_of_neg _ (by simpa using fun h => hij h.symm)]
  | cons e0 rest ih =>
    rcases e0 with ⟨k, cons0⟩
    by_cases hk : k = i
    · rw [c_set_char_cons_eq k cons0 rest i c hk]
      unfold lookupC
      by_cases hkj : k = j
      · exact absurd (hk ▸ hkj.symm) hij
      · rw [List.find?_cons_of_neg _ (by simpa using hkj),
          List.find?_cons_of_neg _ (by simpa using hkj)]
    · rw [c_set_char_cons_ne k cons0 rest i c hk]
      unfold lookupC
      by_cases hkj : k = j
      · rw [List.find?_cons_of_pos _ (by simpa using hkj),
          List.find?_cons_of_pos _ (by simpa using hkj)]
      · rw [List.find?_cons_of_neg _ (by simpa using hkj),
          List.find?_cons_of_neg _ (by simpa using hkj)]
        exact ih

theorem lookupC_c_add_not_ne {m : List (Nat × PlaceConstraint)} {i j : Nat} {c : Char}
    (hij : ¬ j = i) : lookupC (c_add_not m i c) j = lookupC m j := by
  induction m with
  | nil =>
    show lookupC [(i, PlaceConstraint.IsNotChars [c])] j = lookupC [] j
    unfold lookupC
    rw [List.find?_cons_of_neg _ (by simpa using fun h => hij h.symm)]
  | cons e0 rest ih =>
    rcases e0 with ⟨k, cons0⟩
    by_cases hk : k = i
    · rw [c_add_not_cons_eq k cons0 rest i c hk]
      unfold lookupC
      by_cases hkj : k = j
      · exact absurd (hk ▸ hkj.symm) hij
      · rw [List.find?_cons_of_neg _ (by simpa using hkj),
          List.find?_cons_of_neg _ (by simpa using hkj)]
    · rw [c_add_not_cons_ne k cons0 rest i c hk]
      unfold lookupC
      by_cases hkj : k = j
      · rw [List.find?_cons_of_pos _ (by simpa using hkj),
          List.find?_cons_of_pos _ (by simpa using hkj)]
      · rw [List.find?_cons_of_neg _ (by simpa using hkj),
          List.find?_cons_of_neg _ (by simpa using hkj)]
        exact ih

/-- The `constraints` component of the ingest loop, in isolation. -/
def cs_fold (d0 : List Char) (tiles : List (Nat × Char × TileOutcome))
    (cs : List (Nat × PlaceConstraint)) : List (Nat × PlaceConstraint) :=
  tiles.foldl
    (fun m t =>
      match t.2.2 with
      | TileOutcome.Green => c_set_char m t.1 t.2.1
      | _ => if d0.contains t.2.1 then m else c_add_not m t.1 t.2.1)
    cs

theorem ingest_fold_cs (d0 : List Char) (tiles : List (Nat × Char × TileOutcome))
    (cm : List (Char × Nat)) (td : List Char) (cs : List (Nat × PlaceConstraint)) :
    (tiles.foldl (ingest_step d0) (cm, td, cs)).2.2 = cs_fold d0 tiles cs := by
  induction tiles generalizing cm td cs with
  | nil => rfl
  | cons t rest ih =>
    rcases t with ⟨idx, ch, oc⟩
    rcases oc <;>
      simp only [List.foldl_cons, ingest_step, cs_fold, List.foldl_cons] <;>
      rw [← cs_fold] <;> simp [ih]

theorem cs_fold_sat {d0 : List Char} {tiles : List (Nat × Char × TileOutcome)}
    {cs : List (Nat × PlaceConstraint)} {w : Word}
    (hnd : (tiles.map (fun t => t.1)).Nodup)
    (hg : ∀ t ∈ tiles, t.2.2 = TileOutcome.Green → compat (lookupC cs t.1) t.2.1)
    (hsat : ∀ e ∈ cs_fold d0 tiles cs, constraint_sat w e) :
    ∀ e ∈ cs, constraint_sat w e := by
  induction tiles generalizing cs with
  | nil => exact hsat
  | cons t rest ih =>
    rcases t with ⟨idx, ch, oc⟩
    simp only [List.map_cons] at hnd
    rcases List.nodup_cons.mp hnd with ⟨hidx, hndr⟩
    have hne : ∀ t' ∈ rest, ¬ t'.1 = idx :=
      fun t' ht' hx => hidx (hx ▸ List.mem_map_of_mem _ ht')
    rcases oc with _ | _ | _
    · by_cases hd : (d0.contains ch : Bool)
      · refine ih hndr ?_ ?_
        · exact fun t' ht' hgr => hg t' (List.mem_cons_of_mem _ ht') hgr
        · intro e he
          refine hsat e ?_
          show e ∈ cs_fold d0 rest
            (if (d0.contains ch : Bool) then cs else c_add_not cs idx ch)
          rw [if_pos hd]
          exact he
      · have hsub : ∀ e ∈ c_add_not cs idx ch, constraint_sat w e := by
          refine ih hndr ?_ ?_
          · intro t' ht' hgr
            rw [lookupC_c_add_not_ne (hne t' ht')]
            exact hg t' (List.mem_cons_of_mem _ ht') hgr
          · intro e he
            refine hsat e ?_
            show e ∈ cs_fold d0 rest
              (if (d0.contains ch : Bool) then cs else c_add_not cs idx ch)
            rw [if_neg hd]
            exact he
        exact c_add_not_sat hsub
    · by_cases hd : (d0.contains ch : Bool)
      · refine ih hndr ?_ ?_
        · exact fun t' ht' hgr => hg t' (List.mem_cons_of_mem _ ht') hgr
        · intro e he
          refine hsat e ?_
          show e ∈ cs_fold d0 rest
            (if (d0.contains ch : Bool) then cs else c_add_not cs idx ch)
          rw [if_pos hd]
          exact he
      · have hsub : ∀ e ∈ c_add_not cs idx ch, constraint_sat w e := by
          refine ih hndr ?_ ?_
          · intro t' ht' hgr
            rw [lookupC_c_add_not_ne (hne t' ht')]
            exact hg t' (List.mem_cons_of_mem _ ht') hgr
          · intro e he
            refine hsat e ?_
            show e ∈ cs_fold d0 rest
              (if (d0.contains ch : Bool) then cs else c_add_not cs idx ch)
            rw [if_neg hd]
            exact he
        exact c_add_not_sat hsub
    · apply c_set_char_sat (hg (idx, ch, TileOutcome.Green) (List.mem_cons_self _ _) rfl)
      refine ih hndr ?_ ?_
      · intro t' ht' hgr
        rw [lookupC_c_set_char_ne (hne t' ht')]
        exact hg t' (List.mem_cons_of_mem _ ht') hgr
      · intro e he
        exact hsat e he

theorem dis_fold_superset {cm : List (Char × Nat)} {td d : List Char} {c : Char}
    (h : c ∈ d) :
    c ∈ td.foldl
      (fun d ch =>
        if (al_get cm ch).isNone ∧ ¬ d.contains ch then d ++ [ch] else d) d := by
  induction td generalizing d with
  | nil => exact h
  | cons ch rest ih =>
    apply ih
    show c ∈ if (al_get cm ch).isNone ∧ ¬ d.contains ch then d ++ [ch] else d
    by_cases hc2 : (al_get cm ch).isNone = true ∧ ¬ d.contains ch = true
    · rw [if_pos hc2]
      exact List.mem_append_left _ h
    · rw [if_neg hc2]
      exact h

theorem al_max_insert_cons_eq (k : Char) (v : Nat) (rest : List (Char × Nat))
    (x : Char) (cnt : Nat) (hk : k = x) :
    al_max_insert ((k, v) :: rest) x cnt = (k, Nat.max v cnt) :: rest := by
  conv_lhs => unfold al_max_insert
  rw [if_pos hk]

theorem al_max_insert_cons_ne (k : Char) (v : Nat) (rest : List (Char × Nat))
    (x : Char) (cnt : Nat) (hk : ¬ k = x) :
    al_max_insert ((k, v) :: rest) x cnt = (k, v) :: al_max_insert rest x cnt := by
  conv_lhs => unfold al_max_insert
  rw [if_neg hk]

theorem al_max_insert_ge {m : List (Char × Nat)} {c : Char} {n : Nat}
    (x : Char) (cnt : Nat) (h : (c, n) ∈ m) :
    ∃ n', n ≤ n' ∧ (c, n') ∈ al_max_insert m x cnt := by
  induction m with
  | nil => cases h
  | cons e0 rest ih =>
    rcases e0 with ⟨k, v⟩
    by_cases hk : k = x
    · rw [al_max_insert_cons_eq k v rest x cnt hk]
      rcases List.mem_cons.mp h with h1 | h1
      · rcases Prod.mk.injEq .. ▸ h1 with ⟨rfl, rfl⟩
        exact ⟨Nat.max n cnt, Nat.le_max_left _ _, List.mem_cons_self _ _⟩
      · exact ⟨n, le_refl n, List.mem_cons_of_mem _ h1⟩
    · rw [al_max_insert_cons_ne k v rest x cnt hk]
      rcases List.mem_cons.mp h with h1 | h1
      · exact ⟨n, le_refl n, List.mem_cons.mpr (Or.inl h1)⟩
      · rcases ih h1 with ⟨n', hn', hm'⟩
        exact ⟨n', hn', List.mem_cons_of_mem _ hm'⟩

theorem must_fold_ge {cml m0 : List (Char × Nat)} {c : Char} {n : Nat}
    (h : (c, n) ∈ m0) :
    ∃ n', n ≤ n' ∧
      (c, n') ∈ cml.foldl (fun m e => al_max_insert m e.1 e.2) m0 := by
  induction cml generalizing m0 n with
  | nil => exact ⟨n, le_refl n, h⟩
  | cons e0 rest ih =>
    rcases al_max_insert_ge e0.1 e0.2 h with ⟨n1, hn1, hm1⟩
    rcases ih hm1 with ⟨n2, hn2, hm2⟩
    exact ⟨n2, le_trans hn1 hn2, hm2⟩

theorem paired_fst_nodup (g : Guess) : (g.paired.map (fun t => t.1)).Nodup := by
  unfold Guess.paired
  have h : (g.guess.zip g.outcome).enum.map (fun t => t.1) =
      List.range (g.guess.zip g.outcome).length := by
    rw [show (fun t : Nat × Char × TileOutcome => t.1) = Prod.fst from rfl]
    exact List.enum_map_fst _
  rw [h]
  exact List.nodup_range _

/-- Shared characterization of a successful match (both directions, no
side condition: satisfaction of an `IsNotChars` constraint asserts the
indexed letter exists). -/
theorem matches_true_iff (w : Word) (p : Pattern) :
    w.matches p = some true ↔
      ((∀ ch ∈ p.disallowed, ¬ ch ∈ w.word) ∧
       (∀ e ∈ p.must_contain, e.2 ≤ w.word.count e.1) ∧
       (∀ e ∈ p.constraints, constraint_sat w e)) := by
  unfold Word.matches
  cases hd : p.disallowed.any (fun ch => w.has_letter ch) with
  | true =>
    rw [if_pos rfl]
    constructor
    · intro h; simp at h
    · intro h
      rcases List.any_eq_true.mp hd with ⟨ch, hch, hin⟩
      have hmem : ch ∈ w.word := by simpa [Word.has_letter] using hin
      exact absurd hmem (h.1 ch hch)
  | false =>
    cases hm : p.must_contain.any (fun e => w.num_occurrences e.1 < e.2) with
    | true =>
      rw [if_neg (by simp), if_pos rfl]
      constructor
      · intro h; simp at h
      · intro h
        rcases List.any_eq_true.mp hm with ⟨e, he, hlt⟩
        have h2 := h.2.1 e he
        have h3 : w.word.count e.1 < e.2 := by
          simpa [Word.num_occurrences] using hlt
        omega
    | false =>
      rw [if_neg (by simp), if_neg (by simp), obeys_all_true_iff]
      constructor
      · intro h
        refine ⟨?_, ?_, h⟩
        · intro ch hch
          have := List.any_eq_false.mp hd ch hch
          simpa [Word.has_letter] using this
        · intro e he
          have := List.any_eq_false.mp hm e he
          simp only [Word.num_occurrences, decide_eq_true_eq, Nat.not_lt] at this
          exact this
      · exact fun h => h.2.2

/-- Matching the ingested pattern implies matching the prior pattern,
provided the guess's Green tiles agree with the prior positional
constraints. -/
theorem matches_mono {w : Word} {p : Pattern} {g : Guess}
    (hgc : green_consistent p g)
    (h : w.matches (p.ingest g) = some true) : w.matches p = some true := by
  rw [matches_true_iff] at h ⊢
  obtain ⟨hd, hm, hc⟩ := h
  simp only [Pattern.ingest, ingest_fold_cm, ingest_fold_td, ingest_fold_cs,
    List.nil_append] at hd hm hc
  refine ⟨?_, ?_, ?_⟩
  · intro ch hch
    exact hd ch (dis_fold_superset hch)
  · intro e he
    rcases @must_fold_ge (cm_fold g.paired []) p.must_contain e.1 e.2 he with
      ⟨n', hge, hmem⟩
    have h2 := hm (e.1, n') hmem
    simp only at h2
    omega
  · exact cs_fold_sat (paired_fst_nodup g) hgc hc

theorem matches_list_imp {ws : List Word} {p : Pattern} {g : Guess}
    {bs bs' : List Bool}
    (hgc : green_consistent p g)
    (hnew : matches_list ws (p.ingest g) = some bs')
    (hold : matches_list ws p = some bs) :
    List.Forall₂ (fun b' b => b' = true → b = true) bs' bs := by
  induction ws generalizing bs bs' with
  | nil =>
    cases hnew; cases hold
    exact List.Forall₂.nil
  | cons w rest ih =>
    unfold matches_list at hnew hold
    rcases hw' : w.matches (p.ingest g) with _ | b' <;> rw [hw'] at hnew
    · cases hnew
    · rcases hr' : matches_list rest (p.ingest g) with _ | bt' <;> rw [hr'] at hnew
      · cases hnew
      · cases hnew
        rcases hw : w.matches p with _ | b <;> rw [hw] at hold
        · cases hold
        · rcases hr : matches_list rest p with _ | bt <;> rw [hr] at hold
          · cases hold
          · cases hold
            refine List.Forall₂.cons ?_ (ih hr' hr)
            intro hb'
            subst hb'
            have := matches_mono hgc hw'
            rw [this] at hw
            exact (Option.some.inj hw).symm

theorem select_true_length_mono {bs bs' : List Bool} {l : List α}
    (h : List.Forall₂ (fun b' b => b' = true → b = true) bs' bs) :
    (select_true bs' l).length ≤ (select_true bs l).length := by
  induction h generalizing l with
  | nil => exact le_refl _
  | @cons b' b bt' bt hb _ ih =>
    rcases l with _ | ⟨x, l'⟩
    · simp [select_true_nil_right]
    · rcases b' with _ | _
      · rw [select_true_cons_false]
        rcases b with _ | _
        · rw [select_true_cons_false]
          exact ih
        · rw [select_true_cons_true]
          exact le_trans ih (by simp)
      · rw [hb rfl, select_true_cons_true, select_true_cons_true]
        simpa using ih

/-- C4 (amended): ingesting a guess whose Green tiles agree with the prior
knowledge's positional constraints never enlarges the filtered candidate
set: whenever both filterings are defined, the collection filtered by the
ingested knowledge has at most as many words as the one filtered by the
prior knowledge. -/
theorem C4_theorem (p : Pattern) (g : Guess) (wl : Wordlist)
    (sub sub' : Wordlist)
    (hgc : green_consistent p g)
    (hnew : filter_pattern wl (p.ingest g) = some sub')
    (hold : filter_pattern wl p = some sub) :
    sub'.words.length ≤ sub.words.length := by
  unfold filter_pattern at hnew hold
  rcases hml' : matches_list wl.words (p.ingest g) with _ | bs' <;> rw [hml'] at hnew
  · cases hnew
  · rcases hml : matches_list wl.words p with _ | bs <;> rw [hml] at hold
    · cases hold
    · simp only [Option.some.injEq] at hnew hold
      have hw' : sub'.words = select_true bs' wl.words := by
        rw [← hnew]; exact (pick_filterMap bs' wl.words).symm ▸ rfl
      have hw : sub.words = select_true bs wl.words := by
        rw [← hold]; exact (pick_filterMap bs wl.words).symm ▸ rfl
      rw [hw', hw]
      exact select_true_length_mono (matches_list_imp hgc hml' hml)

/-- C4 counterexample: with knowledge forcing position 0 to be `z` and a
(contradictory) Green tile `a` at position 0, the ingested knowledge
overwrites the forced letter, and filtering a one-word collection by the
ingested knowledge keeps one word while the prior knowledge kept none. -/
theorem C4_counterexample :
    ¬ (((filter_pattern (Wordlist.mk [Word.ofString "a"] [(1 : ℚ)])
          ((Pattern.mk [] [] [(0, PlaceConstraint.IsChar 'z')]).ingest
            (Guess.mk ['a'] [TileOutcome.Green]))).map
          (fun s => s.words.length)).getD 0 ≤
        ((filter_pattern (Wordlist.mk [Word.ofString "a"] [(1 : ℚ)])
          (Pattern.mk [] [] [(0, PlaceConstraint.IsChar 'z')])).map
          (fun s => s.words.length)).getD 0) := by
  decide

/-- C4 witness: the amended monotonicity at a concrete consistent state. -/
theorem C4_witness :
    (Wordlist.mk [Word.ofString "aa"] []).words.length ≤
      (Wordlist.mk [Word.ofString "aa", Word.ofString "ba"] []).words.length :=
  C4_theorem (Pattern.mk [] [] [])
    (Guess.mk ['a'] [TileOutcome.Green])
    (Wordlist.mk [Word.ofString "aa", Word.ofString "ba"] [])
    (Wordlist.mk [Word.ofString "aa", Word.ofString "ba"] [])
    (Wordlist.mk [Word.ofString "aa"] [])
    (by decide) (by decide) (by decide)

/-! ## Claim C6 -/

theorem first_pass_cons_eq (s g : Char) (rest : List (Char × Char))
    (cnt : Char → Int) (h : s = g) :
    first_pass ((s, g) :: rest) cnt =
      (TileOutcome.Green :: (first_pass rest (decr cnt s)).1,
       (first_pass rest (decr cnt s)).2) := by
  conv_lhs => unfold first_pass
  rw [if_pos h]

theorem first_pass_cons_ne (s g : Char) (rest : List (Char × Char))
    (cnt : Char → Int) (h : ¬ s = g) :
    first_pass ((s, g) :: rest) cnt =
      (TileOutcome.Gray :: (first_pass rest cnt).1, (first_pass rest cnt).2) := by
  conv_lhs => unfold first_pass
  rw [if_neg h]

theorem first_pass_fst (l : List (Char × Char)) (cnt : Char → Int) :
    (first_pass l cnt).1 =
      l.map (fun p => if p.1 = p.2 then TileOutcome.Green else TileOutcome.Gray) := by
  induction l generalizing cnt with
  | nil => rfl
  | cons p rest ih =>
    rcases p with ⟨s, g⟩
    by_cases h : s = g
    · rw [first_pass_cons_eq s g rest cnt h, List.map_cons]
      simp [h, ih]
    · rw [first_pass_cons_ne s g rest cnt h, List.map_cons]
      simp [h, ih]

theorem first_pass_snd (l : List (Char × Char)) (cnt : Char → Int) (c : Char) :
    (first_pass l cnt).2 c =
      cnt c - (l.countP (fun p => p.1 = p.2 ∧ p.1 = c) : Int) := by
  induction l generalizing cnt with
  | nil => simp [first_pass]
  | cons p rest ih =>
    rcases p with ⟨s, g⟩
    by_cases h : s = g
    · subst h
      rw [first_pass_cons_eq s s rest cnt rfl]
      show (first_pass rest (decr cnt s)).2 c = _
      rw [ih, List.countP_cons]
      by_cases hc : s = c
      · subst hc
        have h1 : decr cnt s s = cnt s - 1 := by simp [decr]
        rw [h1]
        simp
        omega
      · have hcs : ¬ c = s := fun hx => hc hx.symm
        have h1 : decr cnt s c = cnt c := by simp [decr, hcs]
        rw [h1]
        simp [hc]
    · rw [first_pass_cons_ne s g rest cnt h]
      show (first_pass rest cnt).2 c = _
      rw [ih, List.countP_cons]
      simp [h]

theorem second_pass_cons_yellow (a : List Char) (o : TileOutcome) (ch : Char)
    (rest : List (TileOutcome × Char)) (cnt : Char → Int)
    (h : o = TileOutcome.Gray ∧ a.contains ch ∧ 0 < cnt ch) :
    second_pass a ((o, ch) :: rest) cnt =
      TileOutcome.Yellow :: second_pass a rest (decr cnt ch) := by
  conv_lhs => unfold second_pass
  rw [if_pos h]

theorem second_pass_cons_keep (a : List Char) (o : TileOutcome) (ch : Char)
    (rest : List (TileOutcome × Char)) (cnt : Char → Int)
    (h : ¬ (o = TileOutcome.Gray ∧ a.contains ch ∧ 0 < cnt ch)) :
    second_pass a ((o, ch) :: rest) cnt = o :: second_pass a rest cnt := by
  conv_lhs => unfold second_pass
  rw [if_neg h]

theorem second_pass_green_total (a : List Char)
    (l : List (TileOutcome × Char)) (cnt : Char → Int) :
    (second_pass a l cnt).count TileOutcome.Green =
      l.countP (fun t => t.1 = TileOutcome.Green) := by
  induction l generalizing cnt with
  | nil => rfl
  | cons t rest ih =>
    rcases t with ⟨o, ch⟩
    rw [List.countP_cons]
    by_cases h : o = TileOutcome.Gray ∧ (a.contains ch : Bool) ∧ 0 < cnt ch
    · rw [second_pass_cons_yellow a o ch rest cnt h]
      rw [List.count_cons]
      rcases h with ⟨rfl, -, -⟩
      simp [ih]
    · rw [second_pass_cons_keep a o ch rest cnt h]
      rw [List.count_cons]
      rcases o <;> simp [ih]

theorem second_pass_green_letter (a : List Char) (c : Char)
    (l : List (TileOutcome × Char)) (cnt : Char → Int) :
    ((second_pass a l cnt).zip (l.map (fun t => t.2))).countP
        (fun p => p.1 = TileOutcome.Green ∧ p.2 = c) =
      l.countP (fun t => t.1 = TileOutcome.Green ∧ t.2 = c) := by
  induction l generalizing cnt with
  | nil => rfl
  | cons t rest ih =>
    rcases t with ⟨o, ch⟩
    by_cases h : o = TileOutcome.Gray ∧ (a.contains ch : Bool) ∧ 0 < cnt ch
    · rw [second_pass_cons_yellow a o ch rest cnt h, List.map_cons,
        List.zip_cons_cons]
      have ihr := ih (decr cnt ch)
      rcases h with ⟨rfl, -, -⟩
      simp only [List.countP_cons]
      simp at ihr ⊢
      exact ihr
    · rw [second_pass_cons_keep a o ch rest cnt h, List.map_cons,
        List.zip_cons_cons]
      have ihr := ih cnt
      simp only [List.countP_cons]
      simp at ihr ⊢
      simp [ihr]

theorem second_pass_yellow_letter (a : List Char) (c : Char)
    (l : List (TileOutcome × Char)) (cnt : Char → Int) :
    ((second_pass a l cnt).zip (l.map (fun t => t.2))).countP
        (fun p => p.1 = TileOutcome.Yellow ∧ p.2 = c) ≤
      (cnt c).toNat + l.countP (fun t => t.1 = TileOutcome.Yellow ∧ t.2 = c) := by
  induction l generalizing cnt with
  | nil => simp
  | cons t rest ih =>
    rcases t with ⟨o, ch⟩
    by_cases h : o = TileOutcome.Gray ∧ (a.contains ch : Bool) ∧ 0 < cnt ch
    · rw [second_pass_cons_yellow a o ch rest cnt h, List.map_cons,
        List.zip_cons_cons]
      have hpos := h.2.2
      have ihr := ih (decr cnt ch)
      rcases h with ⟨rfl, -, -⟩
      by_cases hch : ch = c
      · subst hch
        have hd : decr cnt ch ch = cnt ch - 1 := by simp [decr]
        rw [hd] at ihr
        simp only [List.countP_cons]
        simp at ihr ⊢
        omega
      · have hcs : ¬ c = ch := fun hx => hch hx.symm
        have hd : decr cnt ch c = cnt c := by simp [decr, hcs]
        rw [hd] at ihr
        simp only [List.countP_cons]
        simp [hch] at ihr ⊢
        omega
    · rw [second_pass_cons_keep a o ch rest cnt h, List.map_cons,
        List.zip_cons_cons]
      have ihr := ih cnt
      simp only [List.countP_cons]
      simp at ihr ⊢
      by_cases hoc : o = TileOutcome.Yellow ∧ ch = c
      · simp [hoc.1, hoc.2]
        omega
      · have hx : (decide (o = TileOutcome.Yellow) && decide (ch = c)) = false := by
          rcases Decidable.em (o = TileOutcome.Yellow) with h1 | h1
          · rcases Decidable.em (ch = c) with h2 | h2
            · exact absurd ⟨h1, h2⟩ hoc
            · simp [h2]
          · simp [h1]
        simp [hx]
        omega

theorem countP_GY_split (l : List (TileOutcome × Char)) (c : Char) :
    l.countP (fun p => (p.1 = TileOutcome.Green ∨ p.1 = TileOutcome.Yellow) ∧ p.2 = c) =
      l.countP (fun p => p.1 = TileOutcome.Green ∧ p.2 = c) +
      l.countP (fun p => p.1 = TileOutcome.Yellow ∧ p.2 = c) := by
  induction l with
  | nil => rfl
  | cons t rest ih =>
    rcases t with ⟨o, ch⟩
    simp only [List.countP_cons, ih]
    rcases o <;> by_cases hch : ch = c <;> simp [hch] <;> omega

theorem countP_zip_fst {l1 : List α} {l2 : List β} (P : α → Bool)
    (h : l1.length = l2.length) :
    (l1.zip l2).countP (fun p => P p.1) = l1.countP P := by
  induction l1 generalizing l2 with
  | nil => simp
  | cons x r ih =>
    rcases l2 with _ | ⟨y, r2⟩
    · cases h
    · simp only [List.zip_cons_cons, List.countP_cons]
      rw [ih (by simpa using h)]

/-- C6: for every secret `a` and guess `b` of equal length, the outcome has
exactly as many CorrectPosition (Green) tiles as positions where the two
words agree, and for every letter `c` the number of Green-or-Yellow tiles
whose guessed letter is `c` never exceeds the occurrence count of `c` in the
secret. -/
theorem C6_theorem (a b : Word) (h : b.word.length = a.word.length) :
    ∃ out, a.outcome_of_guess b = some out ∧
      out.count TileOutcome.Green =
        (a.word.zip b.word).countP (fun p => p.1 = p.2) ∧
      ∀ c : Char,
        ((out.zip b.word).countP
          (fun p => (p.1 = TileOutcome.Green ∨ p.1 = TileOutcome.Yellow) ∧ p.2 = c)) ≤
        a.word.count c := by
  have hout : a.outcome_of_guess b = some (second_pass a.word
      ((first_pass (a.word.zip b.word) (fun c => (a.word.count c : Int))).1.zip b.word)
      (first_pass (a.word.zip b.word) (fun c => (a.word.count c : Int))).2) := by
    unfold Word.outcome_of_guess
    rw [if_pos h]
  have hablen : (a.word.zip b.word).length = b.word.length := by
    rw [List.length_zip, h, Nat.min_self]
  have ho1 : (first_pass (a.word.zip b.word) (fun c => (a.word.count c : Int))).1 =
      (a.word.zip b.word).map
        (fun p => if p.1 = p.2 then TileOutcome.Green else TileOutcome.Gray) :=
    first_pass_fst _ _
  have ho1len : (first_pass (a.word.zip b.word)
      (fun c => (a.word.count c : Int))).1.length = b.word.length := by
    rw [ho1, List.length_map, hablen]
  have hbmap : ((first_pass (a.word.zip b.word)
      (fun c => (a.word.count c : Int))).1.zip b.word).map
        (fun t => t.2) = b.word := by
    rw [show (fun t : TileOutcome × Char => t.2) = Prod.snd from rfl]
    exact List.map_snd_zip _ _ (le_of_eq ho1len.symm)
  have hsnd : b.word = (a.word.zip b.word).map Prod.snd :=
    (List.map_snd_zip _ _ (le_of_eq h)).symm
  have hmapl : ((first_pass (a.word.zip b.word)
      (fun c => (a.word.count c : Int))).1.zip b.word) =
      (a.word.zip b.word).map
        (fun p => ((if p.1 = p.2 then TileOutcome.Green else TileOutcome.Gray), p.2)) := by
    have hgen : ∀ l2 : List Char, l2 = (a.word.zip b.word).map Prod.snd →
        ((a.word.zip b.word).map
          (fun p => if p.1 = p.2 then TileOutcome.Green else TileOutcome.Gray)).zip l2 =
        (a.word.zip b.word).map
          (fun p => ((if p.1 = p.2 then TileOutcome.Green else TileOutcome.Gray), p.2)) := by
      intro l2 hl2
      subst hl2
      exact List.zip_map' _ _ _
    rw [ho1]
    exact hgen b.word hsnd
  refine ⟨_, hout, ?_, ?_⟩
  · rw [second_pass_green_total, hmapl, List.countP_map]
    refine List.countP_congr ?_
    intro p _
    by_cases hp : p.1 = p.2 <;> simp [hp]
  · intro c
    have hzip_eq : ((second_pass a.word
        ((first_pass (a.word.zip b.word) (fun c => (a.word.count c : Int))).1.zip b.word)
        (first_pass (a.word.zip b.word) (fun c => (a.word.count c : Int))).2).zip b.word) =
        ((second_pass a.word
          ((first_pass (a.word.zip b.word) (fun c => (a.word.count c : Int))).1.zip b.word)
          (first_pass (a.word.zip b.word) (fun c => (a.word.count c : Int))).2).zip
          (((first_pass (a.word.zip b.word)
            (fun c => (a.word.count c : Int))).1.zip b.word).map (fun t => t.2))) := by
      rw [hbmap]
    rw [hzip_eq, countP_GY_split, second_pass_green_letter]
    have hy := second_pass_yellow_letter a.word c
      ((first_pass (a.word.zip b.word) (fun c => (a.word.count c : Int))).1.zip b.word)
      (first_pass (a.word.zip b.word) (fun c => (a.word.count c : Int))).2
    have hG : ((first_pass (a.word.zip b.word)
        (fun c => (a.word.count c : Int))).1.zip b.word).countP
          (fun t => t.1 = TileOutcome.Green ∧ t.2 = c) =
        (a.word.zip b.word).countP (fun p => p.1 = p.2 ∧ p.2 = c) := by
      rw [hmapl, List.countP_map]
      refine List.countP_congr ?_
      intro p _
      by_cases hp : p.1 = p.2 <;> simp [hp]
    have hY0 : ((first_pass (a.word.zip b.word)
        (fun c => (a.word.count c : Int))).1.zip b.word).countP
          (fun t => t.1 = TileOutcome.Yellow ∧ t.2 = c) = 0 := by
      rw [hmapl, List.countP_map]
      rw [List.countP_eq_zero]
      intro p _
      by_cases hp : p.1 = p.2 <;> simp [hp]
    have hcnt : (first_pass (a.word.zip b.word)
        (fun c => (a.word.count c : Int))).2 c =
        (a.word.count c : Int) -
          ((a.word.zip b.word).countP (fun p => p.1 = p.2 ∧ p.1 = c) : Int) :=
      first_pass_snd _ _ _
    have hGc' : (a.word.zip b.word).countP (fun p => p.1 = p.2 ∧ p.1 = c) =
        (a.word.zip b.word).countP (fun p => p.1 = p.2 ∧ p.2 = c) := by
      refine List.countP_congr ?_
      intro p _
      by_cases hp : p.1 = p.2
      · simp [hp]
      · simp [hp]
    have hle : (a.word.zip b.word).countP (fun p => p.1 = p.2 ∧ p.2 = c) ≤
        a.word.count c := by
      have h1 : (a.word.zip b.word).countP (fun p => p.1 = p.2 ∧ p.2 = c) ≤
          (a.word.zip b.word).countP (fun p => p.1 = c) := by
        refine List.countP_mono_left ?_
        intro p _ hp
        simp only [decide_eq_true_eq] at hp ⊢
        rw [hp.1]
        exact hp.2
      have h2 : (a.word.zip b.word).countP (fun p => p.1 = c) =
          a.word.countP (fun x => x = c) :=
        countP_zip_fst (fun x => decide (x = c)) h.symm
      have h3 : a.word.countP (fun x => x = c) = a.word.count c := by
        rw [List.count_eq_countP]
        refine List.countP_congr ?_
        intro x _
        simp
      omega
    rw [hG]
    rw [hY0] at hy
    rw [hcnt] at hy
    rw [hGc'] at hy
    omega

/-- C6 witness: the counting properties at the duplicate-letter example
secret "crepe" / guess "eerie". -/
theorem C6_witness :
    ∃ out, (Word.ofString "crepe").outcome_of_guess (Word.ofString "eerie") = some out ∧
      out.count TileOutcome.Green =
        ((Word.ofString "crepe").word.zip (Word.ofString "eerie").word).countP
          (fun p => p.1 = p.2) ∧
      ∀ c : Char,
        ((out.zip (Word.ofString "eerie").word).countP
          (fun p => (p.1 = TileOutcome.Green ∨ p.1 = TileOutcome.Yellow) ∧ p.2 = c)) ≤
        (Word.ofString "crepe").word.count c :=
  C6_theorem (Word.ofString "crepe") (Word.ofString "eerie") (by decide)

/-! ## Claim C10 -/

/-- ASCII lowercase letter (the alphabet the system's words live in). -/
def lower (c : Char) : Prop := 97 ≤ c.toNat ∧ c.toNat ≤ 122

instance (c : Char) : Decidable (lower c) := by
  unfold lower; infer_instance

theorem char_toNat_inj {c1 c2 : Char} (h : c1.toNat = c2.toNat) : c1 = c2 := by
  have h1 := Char.ofNat_toNat c1
  have h2 := Char.ofNat_toNat c2
  rw [← h1, ← h2, h]

theorem char_bitmask_lower {c : Char} (h : lower c) :
    char_bitmask c = 2 ^ (c.toNat - 97) := by
  rcases h with ⟨h1, h2⟩
  unfold char_bitmask lower_ascii
  have hm : c.toNat % 256 = c.toNat := Nat.mod_eq_of_lt (by omega)
  rw [hm, if_neg (by omega)]
  have hidx : (c.toNat + 159) % 256 % 64 = c.toNat - 97 := by omega
  rw [hidx, Nat.shiftLeft_eq, Nat.one_mul]

theorem testBit_char_bitmask {c : Char} (h : lower c) (n : Nat) :
    (char_bitmask c).testBit n = decide (c.toNat - 97 = n) := by
  rw [char_bitmask_lower h, Nat.testBit_two_pow]

theorem and_two_pow_eq_zero_iff (m k : Nat) :
    m &&& 2 ^ k = 0 ↔ m.testBit k = false := by
  constructor
  · intro h
    have h2 := congrArg (fun x => x.testBit k) h
    simpa [Nat.testBit_and, Nat.testBit_two_pow] using h2
  · intro h
    apply Nat.eq_of_testBit_eq
    intro i
    rw [Nat.testBit_and, Nat.testBit_two_pow, Nat.zero_testBit]
    by_cases hik : k = i
    · subst hik
      rw [h]
      rfl
    · simp [hik]

theorem testBit_fold_or {l : List Char} (hl : ∀ x ∈ l, lower x) (acc n : Nat) :
    (l.foldl (fun output ch => output ||| char_bitmask ch) acc).testBit n =
      (acc.testBit n || l.any (fun x => x.toNat - 97 = n)) := by
  induction l generalizing acc with
  | nil => simp
  | cons x rest ih =>
    rw [List.foldl_cons, ih (fun y hy => hl y (List.mem_cons_of_mem _ hy))]
    rw [Nat.testBit_or, testBit_char_bitmask (hl x (List.mem_cons_self _ _))]
    simp [Bool.or_assoc]

theorem testBit_compute_bitmask {l : List Char} (hl : ∀ x ∈ l, lower x) (n : Nat) :
    (compute_bitmask l).testBit n = l.any (fun x => x.toNat - 97 = n) := by
  unfold compute_bitmask
  rw [testBit_fold_or hl 0 n]
  simp

theorem mask_mem_iff {l : List Char} {c : Char} (hl : ∀ x ∈ l, lower x)
    (hc : lower c) :
    compute_bitmask l &&& char_bitmask c = 0 ↔ ¬ c ∈ l := by
  rw [char_bitmask_lower hc, and_two_pow_eq_zero_iff,
    testBit_compute_bitmask hl (c.toNat - 97)]
  rw [Bool.eq_false_iff]
  constructor
  · intro h hmem
    apply h
    rw [List.any_eq_true]
    exact ⟨c, hmem, by simp⟩
  · intro h hany
    rcases List.any_eq_true.mp hany with ⟨x, hx, heq⟩
    simp only [decide_eq_true_eq] at heq
    have hxl := hl x hx
    have : x = c := by
      apply char_toNat_inj
      rcases hxl with ⟨hx1, hx2⟩
      rcases hc with ⟨hc1, hc2⟩
      omega
    exact h (this ▸ hx)

theorem compute_bitmask_append (l : List Char) (c : Char) :
    compute_bitmask (l ++ [c]) = compute_bitmask l ||| char_bitmask c := by
  unfold compute_bitmask
  rw [List.foldl_append]
  rfl

theorem or_char_bitmask_of_mem {cs : List Char} {c : Char}
    (hcs : ∀ x ∈ cs, lower x) (hc : lower c) (hmem : c ∈ cs) :
    compute_bitmask cs ||| char_bitmask c = compute_bitmask cs := by
  apply Nat.eq_of_testBit_eq
  intro i
  rw [Nat.testBit_or, testBit_char_bitmask hc]
  by_cases hi : c.toNat - 97 = i
  · subst hi
    have hb : (compute_bitmask cs).testBit (c.toNat - 97) = true := by
      rw [testBit_compute_bitmask hcs, List.any_eq_true]
      exact ⟨c, hmem, by simp⟩
    simp [hb]
  · simp [hi]

/-- Correspondence between a words.rs constraint entry and a pattern.rs
constraint entry: same position; a forced letter maps to the same forced
letter; a forbidden list maps to its bitmask (with the list's letters
lowercase, so that the bitmask is faithful). -/
def rel_consL (e : Nat × PlaceConstraint) (f : Nat × PlaceConstraintB) : Prop :=
  f.1 = e.1 ∧
  match e.2, f.2 with
  | PlaceConstraint.IsChar c, PlaceConstraintB.IsChar c' => c' = c
  | PlaceConstraint.IsNotChars cs, PlaceConstraintB.IsNotChars m =>
    m = compute_bitmask cs ∧ ∀ c ∈ cs, lower c
  | _, _ => False

/-- Correspondence between the two `Pattern` representations. -/
def rel_pat (p : Pattern) (q : PatternB) : Prop :=
  (q.disallowed = compute_bitmask p.disallowed ∧ ∀ x ∈ p.disallowed, lower x) ∧
  q.must_contain = p.must_contain ∧
  List.Forall₂ rel_consL p.constraints q.constraints

theorem cb_set_char_cons_eq (j : Nat) (cons0 : PlaceConstraintB)
    (rest : List (Nat × PlaceConstraintB)) (i : Nat) (c : Char) (hj : j = i) :
    cb_set_char ((j, cons0) :: rest) i c = (j, PlaceConstraintB.IsChar c) :: rest := by
  conv_lhs => unfold cb_set_char
  rw [if_pos hj]

theorem cb_set_char_cons_ne (j : Nat) (cons0 : PlaceConstraintB)
    (rest : List (Nat × PlaceConstraintB)) (i : Nat) (c : Char) (hj : ¬ j = i) :
    cb_set_char ((j, cons0) :: rest) i c = (j, cons0) :: cb_set_char rest i c := by
  conv_lhs => unfold cb_set_char
  rw [if_neg hj]

theorem cb_add_not_cons_eq (j : Nat) (cons0 : PlaceConstraintB)
    (rest : List (Nat × PlaceConstraintB)) (i : Nat) (c : Char) (hj : j = i) :
    cb_add_not ((j, cons0) :: rest) i c =
      (j, match cons0 with
          | PlaceConstraintB.IsChar d => PlaceConstraintB.IsChar d
          | PlaceConstraintB.IsNotChars chars =>
            PlaceConstraintB.IsNotChars (chars ||| char_bitmask c)) :: rest := by
  conv_lhs => unfold cb_add_not
  rw [if_pos hj]

theorem cb_add_not_cons_ne (j : Nat) (cons0 : PlaceConstraintB)
    (rest : List (Nat × PlaceConstraintB)) (i : Nat) (c : Char) (hj : ¬ j = i) :
    cb_add_not ((j, cons0) :: rest) i c = (j, cons0) :: cb_add_not rest i c := by
  conv_lhs => unfold cb_add_not
  rw [if_neg hj]

theorem c_set_char_sim {cs : List (Nat × PlaceConstraint)}
    {csB : List (Nat × PlaceConstraintB)}
    (hrel : List.Forall₂ rel_consL cs csB) (i : Nat) (c : Char) :
    List.Forall₂ rel_consL (c_set_char cs i c) (cb_set_char csB i c) := by
  induction hrel with
  | nil => exact List.Forall₂.cons ⟨rfl, rfl⟩ List.Forall₂.nil
  | @cons e f rest restB hef hrest ih =>
    rcases e with ⟨j, cons0⟩
    rcases f with ⟨j', cons0B⟩
    have hj' : j' = j := hef.1
    subst hj'
    by_cases hj : j' = i
    · rw [c_set_char_cons_eq j' cons0 rest i c hj,
        cb_set_char_cons_eq j' cons0B restB i c hj]
      exact List.Forall₂.cons ⟨rfl, rfl⟩ hrest
    · rw [c_set_char_cons_ne j' cons0 rest i c hj,
        cb_set_char_cons_ne j' cons0B restB i c hj]
      exact List.Forall₂.cons hef ih

theorem c_add_not_sim {cs : List (Nat × PlaceConstraint)}
    {csB : List (Nat × PlaceConstraintB)}
    (hrel : List.Forall₂ rel_consL cs csB) (i : Nat) {c : Char} (hc : lower c) :
    List.Forall₂ rel_consL (c_add_not cs i c) (cb_add_not csB i c) := by
  induction hrel with
  | nil =>
    refine List.Forall₂.cons ⟨rfl, ?_⟩ List.Forall₂.nil
    refine ⟨?_, ?_⟩
    · show char_bitmask c = compute_bitmask [c]
      unfold compute_bitmask
      simp
    · intro x hx
      rcases List.mem_singleton.mp hx with rfl
      exact hc
  | @cons e f rest restB hef hrest ih =>
    rcases e with ⟨j, cons0⟩
    rcases f with ⟨j', cons0B⟩
    have hj' : j' = j := hef.1
    subst hj'
    by_cases hj : j' = i
    · rw [c_add_not_cons_eq j' cons0 rest i c hj,
        cb_add_not_cons_eq j' cons0B restB i c hj]
      refine List.Forall₂.cons ⟨rfl, ?_⟩ hrest
      rcases cons0 with d | cs0 <;> rcases cons0B with d' | m
      · exact hef.2
      · exact absurd hef.2 (fun h => h)
      · exact absurd hef.2 (fun h => h)
      · rcases hef.2 with ⟨hm, hlcs⟩
        subst hm
        by_cases hmem : (cs0.contains c : Bool)
        · have hmem2 : c ∈ cs0 := by simpa using hmem
          refine ⟨?_, ?_⟩
          · rw [if_pos hmem]
            exact or_char_bitmask_of_mem hlcs hc hmem2
          · rw [if_pos hmem]
            exact hlcs
        · refine ⟨?_, ?_⟩
          · rw [if_neg hmem]
            exact (compute_bitmask_append cs0 c).symm
          · rw [if_neg hmem]
            intro x hx
            rcases List.mem_append.mp hx with hx2 | hx2
            · exact hlcs x hx2
            · rcases List.mem_singleton.mp hx2 with rfl
              exact hc
    · rw [c_add_not_cons_ne j' cons0 rest i c hj,
        cb_add_not_cons_ne j' cons0B restB i c hj]
      exact List.Forall₂.cons hef ih

theorem loop_sim {tiles : List (Nat × Char × TileOutcome)}
    (hlow : ∀ t ∈ tiles, lower t.2.1)
    {d0 : List Char} (hd0 : ∀ x ∈ d0, lower x)
    (cm : List (Char × Nat)) (td : List Char)
    {cs : List (Nat × PlaceConstraint)} {csB : List (Nat × PlaceConstraintB)}
    (hrel : List.Forall₂ rel_consL cs csB) :
    (tiles.foldl (ingest_step d0) (cm, td, cs)).1 =
      (tiles.foldl (ingest_stepB (compute_bitmask d0)) (cm, td, csB)).1 ∧
    (tiles.foldl (ingest_step d0) (cm, td, cs)).2.1 =
      (tiles.foldl (ingest_stepB (compute_bitmask d0)) (cm, td, csB)).2.1 ∧
    List.Forall₂ rel_consL
      (tiles.foldl (ingest_step d0) (cm, td, cs)).2.2
      (tiles.foldl (ingest_stepB (compute_bitmask d0)) (cm, td, csB)).2.2 := by
  induction tiles generalizing cm td cs csB with
  | nil => exact ⟨rfl, rfl, hrel⟩
  | cons t rest ih =>
    rcases t with ⟨idx, ch, oc⟩
    have hch : lower ch := hlow (idx, ch, oc) (List.mem_cons_self _ _)
    have hlow2 : ∀ t ∈ rest, lower t.2.1 :=
      fun t ht => hlow t (List.mem_cons_of_mem _ ht)
    rcases oc with _ | _ | _
    · have hw : (((idx, ch, TileOutcome.Gray) :: rest).foldl (ingest_step d0)
          (cm, td, cs)) = rest.foldl (ingest_step d0)
          (cm, td ++ [ch],
            if (d0.contains ch : Bool) then cs else c_add_not cs idx ch) := rfl
      have hwB : (((idx, ch, TileOutcome.Gray) :: rest).foldl
          (ingest_stepB (compute_bitmask d0)) (cm, td, csB)) =
          rest.foldl (ingest_stepB (compute_bitmask d0))
          (cm, td ++ [ch],
            if compute_bitmask d0 &&& char_bitmask ch = 0
            then cb_add_not csB idx ch else csB) := rfl
      rw [hw, hwB]
      by_cases hcon : (d0.contains ch : Bool)
      · have hmem : ch ∈ d0 := by simpa using hcon
        have hmask : ¬ (compute_bitmask d0 &&& char_bitmask ch = 0) := by
          rw [mask_mem_iff hd0 hch]
          exact fun h => h hmem
        rw [if_pos hcon, if_neg hmask]
        exact ih hlow2 cm (td ++ [ch]) hrel
      · have hmem : ¬ ch ∈ d0 := by simpa using hcon
        have hmask : compute_bitmask d0 &&& char_bitmask ch = 0 := by
          rw [mask_mem_iff hd0 hch]
          exact hmem
        rw [if_neg hcon, if_pos hmask]
        exact ih hlow2 cm (td ++ [ch]) (c_add_not_sim hrel idx hch)
    · have hw : (((idx, ch, TileOutcome.Yellow) :: rest).foldl (ingest_step d0)
          (cm, td, cs)) = rest.foldl (ingest_step d0)
          (al_incr cm ch, td,
            if (d0.contains ch : Bool) then cs else c_add_not cs idx ch) := rfl
      have hwB : (((idx, ch, TileOutcome.Yellow) :: rest).foldl
          (ingest_stepB (compute_bitmask d0)) (cm, td, csB)) =
          rest.foldl (ingest_stepB (compute_bitmask d0))
          (al_incr cm ch, td,
            if compute_bitmask d0 &&& char_bitmask ch = 0
            then cb_add_not csB idx ch else csB) := rfl
      rw [hw, hwB]
      by_cases hcon : (d0.contains ch : Bool)
      · have hmem : ch ∈ d0 := by simpa using hcon
        have hmask : ¬ (compute_bitmask d0 &&& char_bitmask ch = 0) := by
          rw [mask_mem_iff hd0 hch]
          exact fun h => h hmem
        rw [if_pos hcon, if_neg hmask]
        exact ih hlow2 (al_incr cm ch) td hrel
      · have hmem : ¬ ch ∈ d0 := by simpa using hcon
        have hmask : compute_bitmask d0 &&& char_bitmask ch = 0 := by
          rw [mask_mem_iff hd0 hch]
          exact hmem
        rw [if_neg hcon, if_pos hmask]
        exact ih hlow2 (al_incr cm ch) td (c_add_not_sim hrel idx hch)
    · have hw : (((idx, ch, TileOutcome.Green) :: rest).foldl (ingest_step d0)
          (cm, td, cs)) = rest.foldl (ingest_step d0)
          (al_incr cm ch, td, c_set_char cs idx ch) := rfl
      have hwB : (((idx, ch, TileOutcome.Green) :: rest).foldl
          (ingest_stepB (compute_bitmask d0)) (cm, td, csB)) =
          rest.foldl (ingest_stepB (compute_bitmask d0))
          (al_incr cm ch, td, cb_set_char csB idx ch) := rfl
      rw [hw, hwB]
      exact ih hlow2 (al_incr cm ch) td (c_set_char_sim hrel idx ch)

theorem dis_fold_sim {td : List Char} (hld : ∀ x ∈ td, lower x)
    (cm : List (Char × Nat)) {d : List Char} (hdl : ∀ x ∈ d, lower x) :
    (td.foldl (fun d ch =>
        if (al_get cm ch).isNone ∧ d &&& char_bitmask ch = 0
        then d ||| char_bitmask ch else d) (compute_bitmask d)) =
      compute_bitmask (td.foldl (fun d ch =>
        if (al_get cm ch).isNone ∧ ¬ d.contains ch then d ++ [ch] else d) d) ∧
    ∀ x ∈ (td.foldl (fun d ch =>
        if (al_get cm ch).isNone ∧ ¬ d.contains ch then d ++ [ch] else d) d),
      lower x := by
  induction td generalizing d with
  | nil => exact ⟨rfl, hdl⟩
  | cons ch rest ih =>
    have hch : lower ch := hld ch (List.mem_cons_self _ _)
    have hld2 : ∀ x ∈ rest, lower x := fun x hx => hld x (List.mem_cons_of_mem _ hx)
    have hw : ((ch :: rest).foldl (fun d ch =>
        if (al_get cm ch).isNone ∧ ¬ d.contains ch then d ++ [ch] else d) d) =
        rest.foldl (fun d ch =>
          if (al_get cm ch).isNone ∧ ¬ d.contains ch then d ++ [ch] else d)
          (if (al_get cm ch).isNone ∧ ¬ d.contains ch then d ++ [ch] else d) := rfl
    have hwB : ((ch :: rest).foldl (fun d ch =>
        if (al_get cm ch).isNone ∧ d &&& char_bitmask ch = 0
        then d ||| char_bitmask ch else d) (compute_bitmask d)) =
        rest.foldl (fun d ch =>
          if (al_get cm ch).isNone ∧ d &&& char_bitmask ch = 0
          then d ||| char_bitmask ch else d)
          (if (al_get cm ch).isNone ∧ compute_bitmask d &&& char_bitmask ch = 0
           then compute_bitmask d ||| char_bitmask ch else compute_bitmask d) := rfl
    rw [hw, hwB]
    by_cases hget : (al_get cm ch).isNone = true
    · by_cases hcon : (d.contains ch : Bool)
      · have hmem : ch ∈ d := by simpa using hcon
        have hmask : ¬ (compute_bitmask d &&& char_bitmask ch = 0) := by
          rw [mask_mem_iff hdl hch]
          exact fun h => h hmem
        rw [if_neg (fun h => hmask h.2), if_neg (fun h => h.2 hcon)]
        exact ih hld2 hdl
      · have hmem : ¬ ch ∈ d := by simpa using hcon
        have hmask : compute_bitmask d &&& char_bitmask ch = 0 := by
          rw [mask_mem_iff hdl hch]
          exact hmem
        rw [if_pos ⟨hget, hmask⟩, if_pos ⟨hget, by simpa using hcon⟩,
          ← compute_bitmask_append]
        refine ih hld2 ?_
        intro x hx
        rcases List.mem_append.mp hx with hx2 | hx2
        · exact hdl x hx2
        · rcases List.mem_singleton.mp hx2 with rfl
          exact hch
    · rw [if_neg (fun h => hget h.1), if_neg (fun h => hget h.1)]
      exact ih hld2 hdl

theorem paired_letter_mem {g : Guess} {t : Nat × Char × TileOutcome}
    (ht : t ∈ g.paired) : t.2.1 ∈ g.guess := by
  rcases t with ⟨i, ch, oc⟩
  rw [Guess.paired, List.enum_eq_zip_range] at ht
  exact (List.of_mem_zip (List.of_mem_zip ht).2).1

theorem ingest_sim {p : Pattern} {q : PatternB} {g : Guess}
    (hrel : rel_pat p q) (hg : ∀ c ∈ g.guess, lower c) :
    rel_pat (p.ingest g) (q.ingest g) := by
  rcases p with ⟨pd, pm, pc⟩
  rcases q with ⟨qd, qm, qc⟩
  simp only [rel_pat] at hrel
  obtain ⟨⟨hdB, hdl⟩, hmc, hcs⟩ := hrel
  subst hdB
  subst hmc
  have hlow : ∀ t ∈ g.paired, lower t.2.1 :=
    fun t ht => hg t.2.1 (paired_letter_mem ht)
  obtain ⟨hcm, htd, hcons⟩ :=
    loop_sim hlow hdl ([] : List (Char × Nat)) ([] : List Char) hcs
  have htdl : ∀ x ∈ (g.paired.foldl (ingest_step pd) ([], [], pc)).2.1,
      lower x := by
    intro x hx
    rw [ingest_fold_td] at hx
    simp only [List.nil_append] at hx
    rcases grays_mem.mp hx with ⟨t, ht, hxc, _⟩
    exact hxc ▸ hlow t ht
  have hdis :=
    dis_fold_sim htdl (g.paired.foldl (ingest_step pd) ([], [], pc)).1 hdl
  simp only [Pattern.ingest, PatternB.ingest, rel_pat]
  refine ⟨⟨?_, ?_⟩, ?_, ?_⟩
  · rw [← hcm, ← htd]
    exact hdis.1
  · exact hdis.2
  · rw [hcm]
  · exact hcons

theorem fold_sim {gs : List Guess} (hg : ∀ g ∈ gs, ∀ c ∈ g.guess, lower c)
    {p : Pattern} {q : PatternB} (hrel : rel_pat p q) :
    rel_pat (gs.foldl Pattern.ingest p) (gs.foldl PatternB.ingest q) := by
  induction gs generalizing p q with
  | nil => exact hrel
  | cons g rest ih =>
    exact ih (fun g' hg' => hg g' (List.mem_cons_of_mem _ hg'))
      (ingest_sim hrel (hg g (List.mem_cons_self _ _)))

/-- The spec's notion of the two representations "representing the same
knowledge": same disallowed letters, equal must-contain maps, and positional
constraints that force the same letter or exclude the same letter sets.
Letter equality is stated over lowercase ASCII letters, the domain of the
system's words (`char_bitmask` collapses characters outside a-z). -/
def same_cons (e : Nat × PlaceConstraint) (f : Nat × PlaceConstraintB) : Prop :=
  f.1 = e.1 ∧
  match e.2, f.2 with
  | PlaceConstraint.IsChar c, PlaceConstraintB.IsChar c' => c' = c
  | PlaceConstraint.IsNotChars cs, PlaceConstraintB.IsNotChars m =>
    ∀ c, lower c → (c ∈ cs ↔ ¬ m &&& char_bitmask c = 0)
  | _, _ => False

def same_knowledge (p : Pattern) (q : PatternB) : Prop :=
  (∀ c, lower c → (c ∈ p.disallowed ↔ ¬ q.disallowed &&& char_bitmask c = 0)) ∧
  q.must_contain = p.must_contain ∧
  List.Forall₂ same_cons p.constraints q.constraints

theorem rel_pat_same_knowledge {p : Pattern} {q : PatternB}
    (h : rel_pat p q) : same_knowledge p q := by
  obtain ⟨⟨hdB, hdl⟩, hmc, hcs⟩ := h
  refine ⟨?_, hmc, ?_⟩
  · intro c hc
    rw [hdB]
    constructor
    · intro hmem hmask
      exact (mask_mem_iff hdl hc).mp hmask hmem
    · intro hmask
      by_contra hmem
      exact hmask ((mask_mem_iff hdl hc).mpr hmem)
  · refine List.Forall₂.imp ?_ hcs
    intro e f hef
    obtain ⟨hidx, hrest⟩ := hef
    refine ⟨hidx, ?_⟩
    rcases e with ⟨i, ec⟩
    rcases f with ⟨j, fc⟩
    rcases ec with c | cs <;> rcases fc with c' | m
    · exact hrest
    · exact hrest
    · exact hrest
    · obtain ⟨hm, hls⟩ := hrest
      intro c hc
      rw [hm]
      constructor
      · intro hmem hmask
        exact (mask_mem_iff hls hc).mp hmask hmem
      · intro hmask
        by_contra hmem
        exact hmask ((mask_mem_iff hls hc).mpr hmem)

/-- C10: the bitmask-based `Pattern::ingest` (pattern.rs) and the set-based
one (words.rs) are equivalent: starting from the corresponding empty
patterns and ingesting the same sequence of guesses (over the system's
lowercase-letter word domain), the resulting patterns represent the same
knowledge — same disallowed letters, equal must_contain maps, and, position
by position, the same constraint (same forced letter, or exclusion sets
holding the same letters). -/
theorem C10_theorem (gs : List Guess)
    (hg : ∀ g ∈ gs, ∀ c ∈ g.guess, lower c) :
    same_knowledge (gs.foldl Pattern.ingest Pattern.empty)
      (gs.foldl PatternB.ingest PatternB.empty) := by
  refine rel_pat_same_knowledge (fold_sim hg ?_)
  exact ⟨⟨rfl, by decide⟩, rfl, List.Forall₂.nil⟩

/-- C10 witness: the equivalence applied to the repository's own test guess
("tares" with outcome Yellow-Gray-Gray-Gray-Gray). -/
theorem C10_witness :
    same_knowledge
      (([⟨['t', 'a', 'r', 'e', 's'],
          [TileOutcome.Yellow, TileOutcome.Gray, TileOutcome.Gray,
           TileOutcome.Gray, TileOutcome.Gray]⟩] : List Guess).foldl
        Pattern.ingest Pattern.empty)
      (([⟨['t', 'a', 'r', 'e', 's'],
          [TileOutcome.Yellow, TileOutcome.Gray, TileOutcome.Gray,
           TileOutcome.Gray, TileOutcome.Gray]⟩] : List Guess).foldl
        PatternB.ingest PatternB.empty) :=
  C10_theorem _ (by decide)

end Crustacean
